import Mathlib

set_option maxRecDepth 100000

/-!
Verification of the `fix_button_config.py` patch script.

The script reads one file, applies two regex substitutions to its content
(a literal multi-line signature replacement, then a scoped identifier
rename inside every region matched by a bounded function pattern), writes
the result back and prints a fixed success message.

The transformations are embedded shallowly over `List Char`:

* `replaceSignature` models `re.sub(old_signature, new_signature, content)`.
  The `old_signature` regex is a literal (every metacharacter is escaped),
  so this substitution is a leftmost, non-overlapping replace-all of the
  unescaped literal.
* `replaceEmailRefs` models
  `re.sub(pattern, replace_email_in_function, new_content, flags=re.DOTALL)`
  where `pattern` is
  `(getButtonConfig: \(email\?\: string\): ButtonConfig => \{.*?return finalConfig;[\s]*\})`.
  `matchRegionAt` decides whether this pattern matches at the head of a
  suffix: the literal header, then a lazy gap, then the terminator
  `return finalConfig;` + whitespace + closing brace.
* `replace_email_in_function` models the inner
  `re.sub(r'\bemail\b(?=\s*[?.!]|\s*\|\||\s*&&|\s*,|\s*;|\s*\))', 'effectiveEmail', body)`.

`wordChar` and `wsChar` are the ASCII readings of Python's `\w` and `\s`
(the target file is ASCII text, so this is faithful on all inputs of
interest).
-/

/-- ASCII reading of Python's `\s` character class. -/
def wsChar (c : Char) : Bool :=
  c == ' ' || c == '\t' || c == '\n' || c == '\r' || c == '\x0b' || c == '\x0c'

/-- ASCII reading of Python's `\w` character class. -/
def wordChar (c : Char) : Bool :=
  c.isAlphanum || c == '_'

/-- The unescaped literal denoted by the `old_signature` regex (source lines 8-34). -/
def old_signature : List Char :=
  ("    // UI Configuration (state-aware)\n    getButtonConfig: (\n      liveEmailOrState?: string | \x7b email?: string; [key: string]: unknown \x7d\n    ): ButtonConfig => \x7b\n      const currentState = get(store);\n      const \x7b\n        email: storeEmail,\n        loading,\n        userExists,\n        hasPasskeys,\n        hasValidPin,\n        fullName,\n        signInState\n      \x7d = currentState;\n\n      // Handle both new string format and legacy object format\n      let email: string;\n      if (typeof liveEmailOrState === \x27string\x27) \x7b\n        // New format: string parameter\n        email = liveEmailOrState || storeEmail;\n      \x7d else if (liveEmailOrState && typeof liveEmailOrState === \x27object\x27) \x7b\n        // Legacy format: object parameter (for tests)\n        email = liveEmailOrState.email || storeEmail;\n      \x7d else \x7b\n        // No parameter: use store email\n        email = storeEmail;\n      \x7d").data

/-- The `new_signature` replacement text (source lines 36-50). -/
def new_signature : List Char :=
  ("    // UI Configuration (state-aware)\n    getButtonConfig: (email?: string): ButtonConfig => \x7b\n      const currentState = get(store);\n      const \x7b\n        email: storeEmail,\n        loading,\n        userExists,\n        hasPasskeys,\n        hasValidPin,\n        fullName,\n        signInState\n      \x7d = currentState;\n\n      // Use provided email or fall back to store email\n      const effectiveEmail = email || storeEmail;").data

/-- Scanning loop of
`re.sub(old_signature, new_signature, content, flags=re.MULTILINE)`
(source line 53).  The pattern is a literal and contains no `^`/`$`, so
this substitution is a leftmost non-overlapping replace-all of the
literal.  `fuel` is only a structural-recursion bound (each step consumes
at least one character, so any `fuel ≥` the length of the text gives the
scan's true result); it lets the kernel evaluate the function. -/
def sigGo : Nat → List Char → List Char
  | 0, s => s
  | _ + 1, [] => []
  | fuel + 1, c :: rest =>
    if old_signature.isPrefixOf (c :: rest) then
      new_signature ++ sigGo fuel ((c :: rest).drop old_signature.length)
    else
      c :: sigGo fuel rest

/-- `re.sub(old_signature, new_signature, content, flags=re.MULTILINE)`
(source line 53). -/
def replaceSignature (s : List Char) : List Char := sigGo s.length s

/-- The literal header of the bounded-region pattern (source line 66). -/
def function_header : List Char :=
  "getButtonConfig: (email?: string): ButtonConfig => \x7b".data

/-- The literal return marker that starts the end of the bounded region. -/
def ret_marker : List Char := "return finalConfig;".data

/-- Attempt to match `return finalConfig;[\s]*\}` at the head of `s`,
returning the length of the match.  Since `}` is not a whitespace
character, the greedy `[\s]*` can only succeed by consuming the entire
leading whitespace run. -/
def matchTermAt (s : List Char) : Option Nat :=
  if ret_marker.isPrefixOf s then
    let u := s.drop ret_marker.length
    let k := (u.takeWhile wsChar).length
    match u.drop k with
    | '\x7d' :: _ => some (ret_marker.length + k + 1)
    | _ => none
  else none

/-- Lazy `.*?` (with `re.DOTALL`) followed by the terminator: the first
position at which the terminator matches determines the end of the
region.  Returns the total length consumed from `s`. -/
def findLazyEnd : List Char → Option Nat
  | [] => matchTermAt []
  | c :: rest =>
    match matchTermAt (c :: rest) with
    | some t => some t
    | none => (findLazyEnd rest).map (· + 1)

/-- Attempt to match the full bounded-region pattern at the head of `s`,
returning the length of the match. -/
def matchRegionAt (s : List Char) : Option Nat :=
  if function_header.isPrefixOf s then
    (findLazyEnd (s.drop function_header.length)).map (function_header.length + ·)
  else none

def email_lit : List Char := "email".data

def eff_email : List Char := "effectiveEmail".data

/-- Lookahead alternative `\s*[?.!]`. -/
def lookahead1 (t : List Char) : Bool :=
  match t.dropWhile wsChar with
  | c :: _ => c == '?' || c == '.' || c == '!'
  | [] => false

/-- Lookahead alternative `\s*\|\|`. -/
def lookahead2 (t : List Char) : Bool :=
  match t.dropWhile wsChar with
  | c :: d :: _ => c == '|' && d == '|'
  | _ => false

/-- Lookahead alternative `\s*&&`. -/
def lookahead3 (t : List Char) : Bool :=
  match t.dropWhile wsChar with
  | c :: d :: _ => c == '&' && d == '&'
  | _ => false

/-- Lookahead alternative `\s*,`. -/
def lookahead4 (t : List Char) : Bool :=
  match t.dropWhile wsChar with
  | c :: _ => c == ','
  | _ => false

/-- Lookahead alternative `\s*;`. -/
def lookahead5 (t : List Char) : Bool :=
  match t.dropWhile wsChar with
  | c :: _ => c == ';'
  | _ => false

/-- Lookahead alternative `\s*\)`. -/
def lookahead6 (t : List Char) : Bool :=
  match t.dropWhile wsChar with
  | c :: _ => c == ')'
  | _ => false

/-- The full lookahead `(?=\s*[?.!]|\s*\|\||\s*&&|\s*,|\s*;|\s*\))`. -/
def emailLookahead (t : List Char) : Bool :=
  lookahead1 t || lookahead2 t || lookahead3 t || lookahead4 t || lookahead5 t || lookahead6 t

/-- The trailing `\b` of `\bemail\b`: the next character, if any, is not a
word character. -/
def wordBoundaryAfter (t : List Char) : Bool :=
  match t with
  | [] => true
  | c :: _ => !wordChar c

/-- One left-to-right pass of
`re.sub(r'\bemail\b(?=...)', 'effectiveEmail', body)` (source line 62).
`prevWord` records whether the character immediately before the current
position is a word character (for the leading `\b`); the fuel argument is
only a structural-recursion bound (any fuel `≥` the length of the text
gives the scan's true result). -/
def renameGo : Nat → Bool → List Char → List Char
  | 0, _, s => s
  | _ + 1, _, [] => []
  | fuel + 1, prevWord, c :: rest =>
    if !prevWord && email_lit.isPrefixOf (c :: rest)
        && wordBoundaryAfter ((c :: rest).drop 5) && emailLookahead ((c :: rest).drop 5) then
      eff_email ++ renameGo fuel true ((c :: rest).drop 5)
    else
      c :: renameGo fuel (wordChar c) rest

/-- `replace_email_in_function` (source lines 58-63) applied to a matched
region: scanning starts at the beginning of the region (no preceding word
character). -/
def replace_email_in_function (s : List Char) : List Char := renameGo s.length false s

/-- Scanning loop of
`re.sub(pattern, replace_email_in_function, new_content, flags=re.DOTALL)`
(source line 67): replace every leftmost non-overlapping match of the
bounded-region pattern by its renamed form.  (`matchRegionAt` never
returns `some 0` because the header is nonempty, so the `some 0` fallback
branch is dead code.)  As above, the fuel argument is only a
structural-recursion bound. -/
def refsGo : Nat → List Char → List Char
  | 0, s => s
  | _ + 1, [] => []
  | fuel + 1, c :: rest =>
    match matchRegionAt (c :: rest) with
    | some (n + 1) =>
      replace_email_in_function ((c :: rest).take (n + 1)) ++
        refsGo fuel ((c :: rest).drop (n + 1))
    | _ => c :: refsGo fuel rest

/-- `re.sub(pattern, replace_email_in_function, new_content, flags=re.DOTALL)`
(source line 67). -/
def replaceEmailRefs (s : List Char) : List Char := refsGo s.length s

/-- The whole content transformation: signature replacement, then the
scoped identifier rename. -/
def fixContent (s : List Char) : List Char := replaceEmailRefs (replaceSignature s)

/-- The success message printed at source line 73. -/
def success_message : String := "✅ Fixed getButtonConfig signature and parameter handling"

/-- The whole run.  `none` models a failed read (missing/unreadable
file): the run aborts before transforming, writing or printing.
`some (w, m)` models a completed run that wrote `w` and printed `m`. -/
def runScript : Option (List Char) → Option (List Char × String)
  | none => none
  | some content => some (fixContent content, success_message)

/-- Does the old-signature literal occur anywhere in `s`? -/
def hasOldSignature : List Char → Bool
  | [] => false
  | c :: rest => old_signature.isPrefixOf (c :: rest) || hasOldSignature rest

/-- Does the bounded-region pattern match anywhere in `s`? -/
def hasRegionMatch : List Char → Bool
  | [] => false
  | c :: rest => (matchRegionAt (c :: rest)).isSome || hasRegionMatch rest

example : old_signature.length = 889 := by decide
example : new_signature.length = 422 := by decide
example : function_header.length = 52 := by decide
example : matchRegionAt (function_header ++ ret_marker ++ ['\x7d']) = some 72 := by decide

/-! ### Fuel adequacy

The three scanning loops take a fuel argument purely to make them
structurally recursive (so that the kernel can evaluate them).  Any fuel
at least the length of the scanned text yields the same result; the
following lemmas provide the natural recursion equations of the wrappers. -/

lemma sigGo_congr : ∀ (f1 f2 : Nat) (s : List Char),
    s.length ≤ f1 → s.length ≤ f2 → sigGo f1 s = sigGo f2 s := by
  intro f1
  induction f1 with
  | zero =>
    intro f2 s h1 _
    have hs : s = [] := List.length_eq_zero.mp (Nat.le_zero.mp h1)
    subst hs
    cases f2 <;> rfl
  | succ f1 ih =>
    intro f2 s h1 h2
    cases s with
    | nil => cases f2 <;> rfl
    | cons c rest =>
      cases f2 with
      | zero => simp at h2
      | succ f2 =>
        have hO : 0 < old_signature.length := by decide
        simp only [List.length_cons, Nat.succ_le_succ_iff] at h1 h2
        by_cases hp : old_signature.isPrefixOf (c :: rest) = true
        · simp only [sigGo, hp, if_true]
          have hd : ((c :: rest).drop old_signature.length).length ≤ rest.length := by
            simp only [List.length_drop, List.length_cons]
            omega
          exact congrArg (new_signature ++ ·)
            (ih f2 _ (le_trans hd h1) (le_trans hd h2))
        · simp only [sigGo, hp, if_false, Bool.false_eq_true]
          exact congrArg (c :: ·) (ih f2 rest h1 h2)

lemma replaceSignature_nil : replaceSignature [] = [] := rfl

lemma replaceSignature_cons_pos {c : Char} {rest : List Char}
    (hp : old_signature.isPrefixOf (c :: rest) = true) :
    replaceSignature (c :: rest) =
      new_signature ++ replaceSignature ((c :: rest).drop old_signature.length) := by
  have hO : 0 < old_signature.length := by decide
  rw [replaceSignature, replaceSignature]
  simp only [List.length_cons, sigGo, hp, if_true]
  refine congrArg (new_signature ++ ·) (sigGo_congr _ _ _ ?_ le_rfl)
  simp only [List.length_drop, List.length_cons]
  omega

lemma replaceSignature_cons_neg {c : Char} {rest : List Char}
    (hp : ¬ old_signature.isPrefixOf (c :: rest) = true) :
    replaceSignature (c :: rest) = c :: replaceSignature rest := by
  rw [replaceSignature, replaceSignature]
  simp only [List.length_cons, sigGo, hp, if_false, Bool.false_eq_true]

lemma renameGo_congr : ∀ (f1 f2 : Nat) (p : Bool) (s : List Char),
    s.length ≤ f1 → s.length ≤ f2 → renameGo f1 p s = renameGo f2 p s := by
  intro f1
  induction f1 with
  | zero =>
    intro f2 p s h1 _
    have hs : s = [] := List.length_eq_zero.mp (Nat.le_zero.mp h1)
    subst hs
    cases f2 <;> rfl
  | succ f1 ih =>
    intro f2 p s h1 h2
    cases s with
    | nil => cases f2 <;> rfl
    | cons c rest =>
      cases f2 with
      | zero => simp at h2
      | succ f2 =>
        simp only [List.length_cons, Nat.succ_le_succ_iff] at h1 h2
        by_cases hp : (!p && email_lit.isPrefixOf (c :: rest)
            && wordBoundaryAfter ((c :: rest).drop 5)
            && emailLookahead ((c :: rest).drop 5)) = true
        · simp only [renameGo, hp, if_true]
          have hd : ((c :: rest).drop 5).length ≤ rest.length := by
            simp only [List.length_drop, List.length_cons]
            omega
          exact congrArg (eff_email ++ ·)
            (ih f2 true _ (le_trans hd h1) (le_trans hd h2))
        · simp only [renameGo, hp, if_false, Bool.false_eq_true]
          exact congrArg (c :: ·) (ih f2 (wordChar c) rest h1 h2)

/-- The rename scan started with an arbitrary previous-character state. -/
def renameFrom (prevWord : Bool) (s : List Char) : List Char :=
  renameGo s.length prevWord s

lemma replace_email_in_function_def (s : List Char) :
    replace_email_in_function s = renameFrom false s := rfl

lemma renameFrom_nil (p : Bool) : renameFrom p [] = [] := rfl

lemma renameFrom_cons_pos {p : Bool} {c : Char} {rest : List Char}
    (hp : (!p && email_lit.isPrefixOf (c :: rest)
        && wordBoundaryAfter ((c :: rest).drop 5)
        && emailLookahead ((c :: rest).drop 5)) = true) :
    renameFrom p (c :: rest) = eff_email ++ renameFrom true ((c :: rest).drop 5) := by
  rw [renameFrom, renameFrom]
  simp only [List.length_cons, renameGo, hp, if_true]
  refine congrArg (eff_email ++ ·) (renameGo_congr _ _ _ _ ?_ le_rfl)
  simp only [List.length_drop, List.length_cons]
  omega

lemma renameFrom_cons_neg {p : Bool} {c : Char} {rest : List Char}
    (hp : ¬ (!p && email_lit.isPrefixOf (c :: rest)
        && wordBoundaryAfter ((c :: rest).drop 5)
        && emailLookahead ((c :: rest).drop 5)) = true) :
    renameFrom p (c :: rest) = c :: renameFrom (wordChar c) rest := by
  rw [renameFrom, renameFrom]
  simp only [List.length_cons, renameGo, hp, if_false, Bool.false_eq_true]

lemma refsGo_congr : ∀ (f1 f2 : Nat) (s : List Char),
    s.length ≤ f1 → s.length ≤ f2 → refsGo f1 s = refsGo f2 s := by
  intro f1
  induction f1 with
  | zero =>
    intro f2 s h1 _
    have hs : s = [] := List.length_eq_zero.mp (Nat.le_zero.mp h1)
    subst hs
    cases f2 <;> rfl
  | succ f1 ih =>
    intro f2 s h1 h2
    cases s with
    | nil => cases f2 <;> rfl
    | cons c rest =>
      cases f2 with
      | zero => simp at h2
      | succ f2 =>
        simp only [List.length_cons, Nat.succ_le_succ_iff] at h1 h2
        cases hm : matchRegionAt (c :: rest) with
        | none =>
          simp only [refsGo, hm]
          exact congrArg (c :: ·) (ih f2 rest h1 h2)
        | some n =>
          cases n with
          | zero =>
            simp only [refsGo, hm]
            exact congrArg (c :: ·) (ih f2 rest h1 h2)
          | succ n =>
            simp only [refsGo, hm]
            have hd : ((c :: rest).drop (n + 1)).length ≤ rest.length := by
              simp only [List.length_drop, List.length_cons]
              omega
            exact congrArg (replace_email_in_function ((c :: rest).take (n + 1)) ++ ·)
              (ih f2 _ (le_trans hd h1) (le_trans hd h2))

lemma replaceEmailRefs_nil : replaceEmailRefs [] = [] := rfl

lemma replaceEmailRefs_cons_match {c : Char} {rest : List Char} {n : Nat}
    (hm : matchRegionAt (c :: rest) = some (n + 1)) :
    replaceEmailRefs (c :: rest) =
      replace_email_in_function ((c :: rest).take (n + 1)) ++
        replaceEmailRefs ((c :: rest).drop (n + 1)) := by
  rw [replaceEmailRefs, replaceEmailRefs]
  simp only [List.length_cons, refsGo, hm]
  refine congrArg (replace_email_in_function ((c :: rest).take (n + 1)) ++ ·)
    (refsGo_congr _ _ _ ?_ le_rfl)
  simp only [List.length_drop, List.length_cons]
  omega

lemma replaceEmailRefs_cons_none {c : Char} {rest : List Char}
    (hm : matchRegionAt (c :: rest) = none) :
    replaceEmailRefs (c :: rest) = c :: replaceEmailRefs rest := by
  rw [replaceEmailRefs, replaceEmailRefs]
  simp only [List.length_cons, refsGo, hm]

/-! ### Generic helpers about `List.isPrefixOf` -/

lemma nil_isPrefixOf (l : List Char) : ([] : List Char).isPrefixOf l = true := by
  cases l <;> rfl

lemma isPrefixOf_trans {p u s : List Char} (h1 : p.isPrefixOf u = true)
    (h2 : u.isPrefixOf s = true) : p.isPrefixOf s = true :=
  List.isPrefixOf_iff_prefix.mpr
    ((List.isPrefixOf_iff_prefix.mp h1).trans (List.isPrefixOf_iff_prefix.mp h2))

lemma prefix_append_drop {p s : List Char} (h : p.isPrefixOf s = true) :
    p ++ s.drop p.length = s := by
  obtain ⟨t, rfl⟩ := List.isPrefixOf_iff_prefix.mp h
  rw [List.drop_left]

/-- Splitting a prefix of an append: either it lies inside the left part, or
it covers the left part and continues into the right part. -/
lemma isPrefixOf_append_cases {p u v : List Char} (h : p.isPrefixOf (u ++ v) = true) :
    p.isPrefixOf u = true ∨
      (u.isPrefixOf p = true ∧ (p.drop u.length).isPrefixOf v = true) := by
  induction u generalizing p with
  | nil => exact Or.inr ⟨by cases p <;> rfl, by simpa using h⟩
  | cons a u' ih =>
    cases p with
    | nil => exact Or.inl rfl
    | cons b p' =>
      simp only [List.cons_append, List.isPrefixOf, Bool.and_eq_true, beq_iff_eq] at h ⊢
      obtain ⟨hba, hrest⟩ := h
      rcases ih hrest with h' | ⟨h1, h2⟩
      · exact Or.inl ⟨hba, h'⟩
      · refine Or.inr ⟨?_, ?_⟩
        · exact ⟨hba.symm, h1⟩
        · simpa only [List.length_cons, List.drop_succ_cons] using h2

lemma isPrefixOf_append_left {p u : List Char} (v : List Char)
    (h : p.isPrefixOf u = true) : p.isPrefixOf (u ++ v) = true :=
  isPrefixOf_trans h (List.isPrefixOf_iff_prefix.mpr (List.prefix_append u v))

lemma isPrefixOf_self_append (u v : List Char) : u.isPrefixOf (u ++ v) = true :=
  List.isPrefixOf_iff_prefix.mpr (List.prefix_append u v)

/-! ### No-match no-op lemmas -/

lemma replaceSignature_eq_self {s : List Char} (h : hasOldSignature s = false) :
    replaceSignature s = s := by
  induction s with
  | nil => rfl
  | cons c rest ih =>
    rw [hasOldSignature] at h
    simp only [Bool.or_eq_false_iff] at h
    rw [replaceSignature_cons_neg (by simp [h.1]), ih h.2]

lemma replaceEmailRefs_eq_self {s : List Char} (h : hasRegionMatch s = false) :
    replaceEmailRefs s = s := by
  induction s with
  | nil => rfl
  | cons c rest ih =>
    rw [hasRegionMatch] at h
    simp only [Bool.or_eq_false_iff] at h
    cases hm : matchRegionAt (c :: rest) with
    | some n => rw [hm] at h; simp at h
    | none => rw [replaceEmailRefs_cons_none hm, ih h.2]

/-! ### Claim C9: a failed read aborts the run -/

/-- C9: if reading the target file fails, the run aborts before any
transformation: nothing is written and nothing is printed (the `none`
result models the aborted run, so the on-disk state is untouched). -/
theorem read_failure_aborts_run : runScript none = none := rfl

/-! ### Claim C7: the success message is a fixed constant -/

/-- C7: every completed run prints the same fixed success message,
independently of the content and of whether any substitution matched. -/
theorem printed_message_constant (s : List Char) :
    (runScript (some s)).map Prod.snd = some success_message := rfl

/-! ### Claim C8: pattern-match failure is a silent no-op -/

/-- C8: if a substitution's pattern has no match in the text, that
substitution returns its input unchanged (and, being a total function,
raises no error). -/
theorem no_match_silent_noop (s : List Char) :
    (hasOldSignature s = false → replaceSignature s = s) ∧
    (hasRegionMatch s = false → replaceEmailRefs s = s) :=
  ⟨fun h => replaceSignature_eq_self h, fun h => replaceEmailRefs_eq_self h⟩

theorem no_match_silent_noop_witness :
    (hasOldSignature "abc".data = false ∧ replaceSignature "abc".data = "abc".data) ∧
    (hasRegionMatch "abc".data = false ∧ replaceEmailRefs "abc".data = "abc".data) :=
  ⟨⟨by decide, (no_match_silent_noop "abc".data).1 (by decide)⟩,
   ⟨by decide, (no_match_silent_noop "abc".data).2 (by decide)⟩⟩

/-! ### Claim C1: corrected.

The claim states that when the old-signature pattern has no match the
whole transformation is the identity.  That is false: the second
substitution can still fire (for instance on content that already
contains the new-style header with a terminator), so absence of the old
pattern alone does not make the run a no-op.  The amended statement also
requires the bounded-region pattern not to match. -/

/-- C1 counterexample: a content without any old-signature match that the
tool nevertheless rewrites (while still reporting success). -/
theorem c1_counterexample :
    hasOldSignature (function_header ++ ("return finalConfig;\x7d").data) = false ∧
    fixContent (function_header ++ ("return finalConfig;\x7d").data) ≠
      function_header ++ ("return finalConfig;\x7d").data ∧
    (runScript (some (function_header ++ ("return finalConfig;\x7d").data))).map Prod.snd =
      some success_message :=
  ⟨by decide, by decide, rfl⟩

/-- C1 amended: if neither the old-signature literal occurs in the input
nor the bounded-region pattern matches anywhere, then the content written
back equals the content read, and the success message is still printed. -/
theorem c1_amended_no_pattern_identity (s : List Char)
    (h1 : hasOldSignature s = false) (h2 : hasRegionMatch s = false) :
    fixContent s = s ∧ runScript (some s) = some (s, success_message) := by
  have e2 : fixContent s = s := by
    rw [fixContent, replaceSignature_eq_self h1]
    exact replaceEmailRefs_eq_self h2
  exact ⟨e2, by rw [runScript, e2]⟩

theorem c1_amended_no_pattern_identity_witness :
    hasOldSignature "hello".data = false ∧ hasRegionMatch "hello".data = false ∧
    fixContent "hello".data = "hello".data :=
  ⟨by decide, by decide,
    (c1_amended_no_pattern_identity "hello".data (by decide) (by decide)).1⟩

/-! ### Structure of the signature replacement -/

/-- Join a nonempty list of gap strings, putting `sep` between
consecutive gaps. -/
def joinWith (sep : List Char) : List (List Char) → List Char
  | [] => []
  | [g] => g
  | g :: gs => g ++ sep ++ joinWith sep gs

lemma joinWith_pair (sep g g' : List Char) (gs : List (List Char)) :
    joinWith sep (g :: g' :: gs) = g ++ sep ++ joinWith sep (g' :: gs) := rfl

lemma joinWith_cons_char (sep : List Char) (c : Char) (g : List Char)
    (gs : List (List Char)) :
    joinWith sep ((c :: g) :: gs) = c :: joinWith sep (g :: gs) := by
  cases gs <;> simp [joinWith]

lemma joinWith_nil_cons (sep g : List Char) (gs : List (List Char)) :
    joinWith sep ([] :: g :: gs) = sep ++ joinWith sep (g :: gs) := by
  simp [joinWith]

/-- The signature replacement rewrites the text into the same gap strings,
with every removed occurrence of the old signature replaced by the new
one. -/
theorem replaceSignature_decomp : ∀ s : List Char,
    ∃ gs : List (List Char), gs ≠ [] ∧ s = joinWith old_signature gs ∧
      replaceSignature s = joinWith new_signature gs
  | [] => ⟨[[]], by simp, rfl, by rw [replaceSignature_nil]; rfl⟩
  | c :: rest => by
    by_cases hp : old_signature.isPrefixOf (c :: rest) = true
    · obtain ⟨gs, hne, hs, ht⟩ :=
        replaceSignature_decomp ((c :: rest).drop old_signature.length)
      cases gs with
      | nil => exact absurd rfl hne
      | cons g gs' =>
        refine ⟨[] :: g :: gs', by simp, ?_, ?_⟩
        · rw [joinWith_nil_cons, ← hs]
          exact (prefix_append_drop hp).symm
        · rw [replaceSignature_cons_pos hp, joinWith_nil_cons, ← ht]
    · obtain ⟨gs, hne, hs, ht⟩ := replaceSignature_decomp rest
      cases gs with
      | nil => exact absurd rfl hne
      | cons g gs' =>
        refine ⟨(c :: g) :: gs', by simp, ?_, ?_⟩
        · rw [joinWith_cons_char, ← hs]
        · rw [replaceSignature_cons_neg hp, joinWith_cons_char, ← ht]
termination_by s => s.length
decreasing_by
  · have hO : 0 < old_signature.length := by decide
    simp only [List.length_drop, List.length_cons]
    omega
  · simp

/-- Replacing at the head of an occurrence of the old signature. -/
lemma replaceSignature_append_sig (t : List Char) :
    replaceSignature (old_signature ++ t) = new_signature ++ replaceSignature t := by
  cases h : old_signature with
  | nil => exact absurd h (by decide)
  | cons c os =>
    have hp : old_signature.isPrefixOf (c :: (os ++ t)) = true := by
      rw [← List.cons_append, ← h]
      exact isPrefixOf_self_append _ _
    have hd : (c :: (os ++ t)).drop old_signature.length = t := by
      rw [← List.cons_append, ← h, List.drop_left]
    have h2 := replaceSignature_cons_pos hp
    rw [hd] at h2
    rw [List.cons_append]
    exact h2

/-! ### Claim C2: corrected.

`re.sub` with the default count replaces **every** leftmost
non-overlapping match, not only the first one.  On an input made of two
adjacent copies of the old signature, both copies are replaced. -/

/-- C2 counterexample: an input with two disjoint matches of the
old-signature pattern in which the second match is *not* left
unreplaced. -/
theorem c2_counterexample :
    old_signature.isPrefixOf (old_signature ++ old_signature) = true ∧
    old_signature.isPrefixOf
      ((old_signature ++ old_signature).drop old_signature.length) = true ∧
    replaceSignature (old_signature ++ old_signature) ≠
      new_signature ++ old_signature := by
  refine ⟨isPrefixOf_self_append _ _, ?_, ?_⟩
  · rw [List.drop_left]
    exact List.isPrefixOf_iff_prefix.mpr (List.prefix_refl _)
  · have he : replaceSignature (old_signature ++ old_signature) =
        new_signature ++ new_signature := by
      rw [replaceSignature_append_sig]
      have : replaceSignature old_signature = new_signature := by
        have := replaceSignature_append_sig []
        simpa [replaceSignature_nil] using this
      rw [this]
    rw [he]
    intro hcontra
    have hlen := congrArg List.length hcontra
    have h1 : new_signature.length = 422 := by decide
    have h2 : old_signature.length = 889 := by decide
    simp only [List.length_append] at hlen
    omega

/-! ### Characterising matches of the bounded-region pattern -/

lemma takeWhile_take (p : Char → Bool) :
    ∀ (l : List Char) (n : Nat), (l.take n).takeWhile p = (l.takeWhile p).take n
  | [], n => by simp
  | a :: l', 0 => by simp
  | a :: l', n + 1 => by
    by_cases hp : p a = true
    · simp [List.takeWhile_cons, hp, takeWhile_take p l' n]
    · simp [List.takeWhile_cons, hp]

lemma take_eq_cons_shape {l : List Char} {m : Nat} {a : Char} {t : List Char}
    (h : l.take m = a :: t) : ∃ t', l = a :: t' := by
  cases l with
  | nil => simp at h
  | cons b l' =>
    cases m with
    | zero => simp at h
    | succ m =>
      simp only [List.take_succ_cons, List.cons.injEq] at h
      exact ⟨l', by rw [h.1]⟩

lemma isPrefixOf_take {p u : List Char} {n : Nat}
    (h : p.isPrefixOf u = true) (hn : p.length ≤ n) :
    p.isPrefixOf (u.take n) = true := by
  have h1 : p = u.take p.length := List.prefix_iff_eq_take.mp (List.isPrefixOf_iff_prefix.mp h)
  apply List.isPrefixOf_iff_prefix.mpr
  apply List.prefix_iff_eq_take.mpr
  rw [List.take_take, Nat.min_eq_left hn]
  exact h1

/-- Characterisation of a successful terminator match. -/
lemma matchTermAt_eq_some_iff {s : List Char} {t : Nat} :
    matchTermAt s = some t ↔
      ret_marker.isPrefixOf s = true ∧
      ∃ w, (s.drop ret_marker.length).drop
            (((s.drop ret_marker.length).takeWhile wsChar).length) = '\x7d' :: w ∧
        t = ret_marker.length + ((s.drop ret_marker.length).takeWhile wsChar).length + 1 := by
  constructor
  · intro h
    cases hpre : ret_marker.isPrefixOf s with
    | false => rw [matchTermAt, hpre] at h; simp at h
    | true =>
      rw [matchTermAt, hpre] at h
      simp only [if_true] at h
      split at h
      · next w heq =>
        refine ⟨rfl, w, heq, ?_⟩
        exact (Option.some.inj h).symm
      · exact absurd h (by simp)
  · rintro ⟨hpre, w, heq, ht⟩
    rw [matchTermAt, hpre]
    simp only [if_true, heq, ht]

/-- A successful terminator match fits inside the text. -/
lemma matchTermAt_le {s : List Char} {t : Nat} (h : matchTermAt s = some t) :
    t ≤ s.length := by
  obtain ⟨hpre, w, heq, ht⟩ := matchTermAt_eq_some_iff.mp h
  have hR : ret_marker.length ≤ s.length :=
    (List.isPrefixOf_iff_prefix.mp hpre).length_le
  have h1 := congrArg List.length heq
  simp only [List.length_drop, List.length_cons] at h1
  omega

lemma matchTermAt_pos {s : List Char} {t : Nat} (h : matchTermAt s = some t) :
    ret_marker.length + 1 ≤ t := by
  obtain ⟨_, w, _, ht⟩ := matchTermAt_eq_some_iff.mp h
  omega

/-- Truncating the text exactly at a terminator match preserves the match. -/
lemma matchTermAt_take {s : List Char} {t : Nat} (h : matchTermAt s = some t) :
    matchTermAt (s.take t) = some t := by
  obtain ⟨hpre, w, heq, ht⟩ := matchTermAt_eq_some_iff.mp h
  have hle := matchTermAt_le h
  have hR : ret_marker.length ≤ s.length :=
    (List.isPrefixOf_iff_prefix.mp hpre).length_le
  have e1 : (s.take t).drop ret_marker.length =
      (s.drop ret_marker.length).take
        (((s.drop ret_marker.length).takeWhile wsChar).length + 1) := by
    rw [List.drop_take]
    congr 1
    omega
  have e2 : ((s.take t).drop ret_marker.length).takeWhile wsChar =
      ((s.drop ret_marker.length).takeWhile wsChar).take
        (((s.drop ret_marker.length).takeWhile wsChar).length + 1) := by
    rw [e1, takeWhile_take]
  have e3 : (((s.take t).drop ret_marker.length).takeWhile wsChar).length =
      ((s.drop ret_marker.length).takeWhile wsChar).length := by
    rw [e2]
    simp only [List.length_take]
    omega
  apply matchTermAt_eq_some_iff.mpr
  refine ⟨isPrefixOf_take hpre (by omega), [], ?_, ?_⟩
  · rw [e3, e1, List.drop_take, Nat.add_sub_cancel_left, heq]
    rfl
  · rw [e3]
    omega

/-- A terminator match found in a truncation is a match in the full text. -/
lemma matchTermAt_of_take {s : List Char} {T t : Nat}
    (h : matchTermAt (s.take T) = some t) : matchTermAt s = some t := by
  obtain ⟨hpre', w', heq', ht'⟩ := matchTermAt_eq_some_iff.mp h
  have hpre : ret_marker.isPrefixOf s = true :=
    isPrefixOf_trans hpre' (List.isPrefixOf_iff_prefix.mpr (List.take_prefix T s))
  have e1 : (s.take T).drop ret_marker.length =
      (s.drop ret_marker.length).take (T - ret_marker.length) := List.drop_take ..
  have e3 : (((s.take T).drop ret_marker.length).takeWhile wsChar).length =
      min (T - ret_marker.length)
        ((s.drop ret_marker.length).takeWhile wsChar).length := by
    rw [e1, takeWhile_take, List.length_take]
  rw [e3] at ht'
  rw [e1] at heq'
  have e3' : ((((s.drop ret_marker.length).take (T - ret_marker.length))).takeWhile wsChar).length =
      min (T - ret_marker.length)
        ((s.drop ret_marker.length).takeWhile wsChar).length := by
    rw [takeWhile_take, List.length_take]
  rw [e3', List.drop_take] at heq'
  have h1 := congrArg List.length heq'
  simp only [List.length_take, List.length_cons, List.length_drop] at h1
  have hKmin : min (T - ret_marker.length)
      ((s.drop ret_marker.length).takeWhile wsChar).length =
      ((s.drop ret_marker.length).takeWhile wsChar).length := by omega
  rw [hKmin] at heq'
  obtain ⟨x, hx⟩ := take_eq_cons_shape heq'
  exact matchTermAt_eq_some_iff.mpr ⟨hpre, x, hx, by omega⟩

lemma findLazyEnd_nil : findLazyEnd [] = none := by decide

lemma findLazyEnd_le : ∀ {u : List Char} {e : Nat},
    findLazyEnd u = some e → e ≤ u.length := by
  intro u
  induction u with
  | nil => intro e h; rw [findLazyEnd_nil] at h; exact absurd h (by simp)
  | cons c rest ih =>
    intro e h
    rw [findLazyEnd] at h
    cases hmt : matchTermAt (c :: rest) with
    | some t => rw [hmt] at h; exact (Option.some.inj h) ▸ matchTermAt_le hmt
    | none =>
      rw [hmt] at h
      obtain ⟨e', he', rfl⟩ := Option.map_eq_some'.mp h
      have := ih he'
      simp only [List.length_cons]
      omega

lemma findLazyEnd_pos : ∀ {u : List Char} {e : Nat},
    findLazyEnd u = some e → 1 ≤ e := by
  intro u
  induction u with
  | nil => intro e h; rw [findLazyEnd_nil] at h; exact absurd h (by simp)
  | cons c rest ih =>
    intro e h
    rw [findLazyEnd] at h
    cases hmt : matchTermAt (c :: rest) with
    | some t =>
      rw [hmt] at h
      obtain rfl : t = e := Option.some.inj h
      have := matchTermAt_pos hmt
      omega
    | none =>
      rw [hmt] at h
      obtain ⟨e', _, rfl⟩ := Option.map_eq_some'.mp h
      omega

lemma findLazyEnd_take : ∀ {u : List Char} {e : Nat},
    findLazyEnd u = some e → findLazyEnd (u.take e) = some e := by
  intro u
  induction u with
  | nil => intro e h; rw [findLazyEnd_nil] at h; exact absurd h (by simp)
  | cons c rest ih =>
    intro e h
    rw [findLazyEnd] at h
    cases hmt : matchTermAt (c :: rest) with
    | some t =>
      rw [hmt] at h
      have hte : t = e := Option.some.inj h
      have h2 := matchTermAt_take hmt
      have hpos := matchTermAt_pos hmt
      obtain ⟨e', he2⟩ : ∃ e', e = e' + 1 := ⟨e - 1, by omega⟩
      subst he2
      rw [hte] at h2
      rw [List.take_succ_cons] at h2 ⊢
      rw [findLazyEnd, h2]
    | none =>
      rw [hmt] at h
      obtain ⟨e', he', rfl⟩ := Option.map_eq_some'.mp h
      have ihe := ih he'
      rw [List.take_succ_cons, findLazyEnd]
      cases hmt' : matchTermAt (c :: rest.take e') with
      | some t' =>
        have hfull : matchTermAt (c :: rest) = some t' := by
          have hts : (c :: rest).take (e' + 1) = c :: rest.take e' := List.take_succ_cons ..
          exact matchTermAt_of_take (hts ▸ hmt')
        rw [hfull] at hmt
        exact absurd hmt (by simp)
      | none => simp only [ihe, Option.map_some']

/-- Characterisation of a successful region match. -/
lemma matchRegionAt_eq_some_iff {s : List Char} {n : Nat} :
    matchRegionAt s = some n ↔
      function_header.isPrefixOf s = true ∧
      ∃ e, findLazyEnd (s.drop function_header.length) = some e ∧
        n = function_header.length + e := by
  constructor
  · intro h
    cases hpre : function_header.isPrefixOf s with
    | false => rw [matchRegionAt, hpre] at h; simp at h
    | true =>
      rw [matchRegionAt, hpre] at h
      simp only [if_true] at h
      obtain ⟨e, he, rfl⟩ := Option.map_eq_some'.mp h
      exact ⟨rfl, e, he, rfl⟩
  · rintro ⟨hpre, e, he, rfl⟩
    rw [matchRegionAt, hpre]
    simp [he]

lemma matchRegionAt_le {s : List Char} {n : Nat} (h : matchRegionAt s = some n) :
    n ≤ s.length := by
  obtain ⟨hpre, e, he, rfl⟩ := matchRegionAt_eq_some_iff.mp h
  have h1 := findLazyEnd_le he
  have h2 : function_header.length ≤ s.length :=
    (List.isPrefixOf_iff_prefix.mp hpre).length_le
  simp only [List.length_drop] at h1
  omega

lemma matchRegionAt_pos {s : List Char} {n : Nat} (h : matchRegionAt s = some n) :
    function_header.length ≤ n := by
  obtain ⟨_, e, _, rfl⟩ := matchRegionAt_eq_some_iff.mp h
  omega

/-- Truncating the text exactly at a region match preserves the match:
the matched region, taken on its own, still matches the pattern
(with the same length). -/
lemma matchRegionAt_take {s : List Char} {n : Nat} (h : matchRegionAt s = some n) :
    matchRegionAt (s.take n) = some n := by
  obtain ⟨hpre, e, he, rfl⟩ := matchRegionAt_eq_some_iff.mp h
  apply matchRegionAt_eq_some_iff.mpr
  refine ⟨isPrefixOf_take hpre (by omega), e, ?_, rfl⟩
  have e1 : (s.take (function_header.length + e)).drop function_header.length =
      (s.drop function_header.length).take e := by
    rw [List.drop_take]
    congr 1
    omega
  rw [e1]
  exact findLazyEnd_take he

/-! ### Structure of the scoped rename step -/

/-- Interleave gap strings and matched regions:
`altJoin [g0, g1, ..., gk] [m0, ..., m(k-1)]` is
`g0 ++ m0 ++ g1 ++ m1 ++ ... ++ gk`. -/
def altJoin : List (List Char) → List (List Char) → List Char
  | [g], [] => g
  | g :: hs, m :: ms => g ++ m ++ altJoin hs ms
  | _, _ => []

lemma altJoin_region (g m : List Char) (hs ms : List (List Char)) :
    altJoin (g :: hs) (m :: ms) = g ++ m ++ altJoin hs ms := by
  cases hs <;> rfl

lemma altJoin_cons_char {c : Char} {g : List Char} {hs ms : List (List Char)}
    (hlen : hs.length = ms.length) :
    altJoin ((c :: g) :: hs) ms = c :: altJoin (g :: hs) ms := by
  cases ms with
  | nil =>
    have h0 : hs = [] := List.length_eq_zero.mp hlen
    subst h0
    rfl
  | cons m ms' => simp [altJoin_region, List.cons_append]

/-- The scoped-rename substitution rewrites the text into unchanged gap
strings interleaved with the leftmost non-overlapping matches of the
bounded-region pattern, each match replaced by its renamed form: all
characters outside the matched regions pass through unchanged. -/
theorem replaceEmailRefs_decomp : ∀ s : List Char,
    ∃ hs ms : List (List Char), hs.length = ms.length + 1 ∧
      s = altJoin hs ms ∧
      replaceEmailRefs s = altJoin hs (ms.map replace_email_in_function) ∧
      ∀ m ∈ ms, matchRegionAt m = some m.length
  | [] => ⟨[[]], [], rfl, rfl, by rw [replaceEmailRefs_nil]; rfl, by simp⟩
  | c :: rest => by
    cases hm : matchRegionAt (c :: rest) with
    | none =>
      obtain ⟨hs, ms, hl, hsplit, hout, hall⟩ := replaceEmailRefs_decomp rest
      cases hs with
      | nil => simp at hl
      | cons g hs' =>
        have hl' : hs'.length = ms.length := by simpa using hl
        refine ⟨(c :: g) :: hs', ms, by simpa using hl, ?_, ?_, hall⟩
        · rw [altJoin_cons_char hl', ← hsplit]
        · rw [replaceEmailRefs_cons_none hm, hout,
            altJoin_cons_char (by simpa using hl')]
    | some n =>
      have hpos := matchRegionAt_pos hm
      cases n with
      | zero => exact absurd hpos (by decide)
      | succ n =>
        obtain ⟨hs, ms, hl, hsplit, hout, hall⟩ :=
          replaceEmailRefs_decomp ((c :: rest).drop (n + 1))
        refine ⟨[] :: hs, ((c :: rest).take (n + 1)) :: ms, by simpa using hl,
          ?_, ?_, ?_⟩
        · rw [altJoin_region, ← hsplit, List.nil_append]
          exact (List.take_append_drop _ _).symm
        · rw [replaceEmailRefs_cons_match hm, hout, List.map_cons, altJoin_region,
            List.nil_append]
        · intro m hmem
          rcases List.mem_cons.mp hmem with rfl | hmem'
          · have htake := matchRegionAt_take hm
            have hlen : ((c :: rest).take (n + 1)).length = n + 1 := by
              rw [List.length_take]
              exact Nat.min_eq_left (matchRegionAt_le hm)
            rw [hlen]
            exact htake
          · exact hall m hmem'
termination_by s => s.length
decreasing_by
  · simp
  · simp only [List.length_drop, List.length_cons]
    omega

/-! ### Claim C4: the rename step is frame-preserving -/

/-- C4: the identifier-rename step changes nothing outside the regions
matched by the bounded function pattern: the input splits into gap
strings and leftmost non-overlapping pattern matches, and the output is
the same gap strings (byte-for-byte, in particular every occurrence of
`email` in them) with only the matched regions rewritten. -/
theorem c4_rename_outside_regions_unchanged (s : List Char) :
    ∃ hs ms : List (List Char), hs.length = ms.length + 1 ∧
      s = altJoin hs ms ∧
      replaceEmailRefs s = altJoin hs (ms.map replace_email_in_function) ∧
      ∀ m ∈ ms, matchRegionAt m = some m.length :=
  replaceEmailRefs_decomp s

/-! ### Scanning the renamed header through the rename pass -/

/-- `seg` can never start an `email` match, wherever the scan stands:
at every suffix of `seg`, the first five characters (or fewer, if the
suffix is shorter) already disagree with `email`. -/
def cleanSegment : List Char → Bool
  | [] => true
  | c :: rest => !(((c :: rest).take 5).isPrefixOf email_lit) && cleanSegment rest

/-- The previous-word-character state after scanning `seg`. -/
def prevThrough (p : Bool) : List Char → Bool
  | [] => p
  | c :: rest => prevThrough (wordChar c) rest

lemma isPrefixOf_append_false {p s : List Char} (t : List Char)
    (h : (s.take p.length).isPrefixOf p = false) :
    p.isPrefixOf (s ++ t) = false := by
  by_contra hc
  have hp : p <+: s ++ t :=
    List.isPrefixOf_iff_prefix.mp (by simpa using hc)
  have hs : s.take p.length <+: s ++ t :=
    (List.take_prefix _ _).trans (List.prefix_append s t)
  have : s.take p.length <+: p := by
    refine List.prefix_of_prefix_length_le hs hp ?_
    simp [List.length_take]
  rw [List.isPrefixOf_iff_prefix.mpr this] at h
  exact absurd h (by simp)

/-- Scanning a clean segment copies it unchanged and only updates the
previous-character state. -/
lemma renameFrom_clean_append : ∀ (seg : List Char) (p : Bool) (t : List Char),
    cleanSegment seg = true →
    renameFrom p (seg ++ t) = seg ++ renameFrom (prevThrough p seg) t
  | [], p, t, _ => by simp [prevThrough]
  | c :: rest, p, t, hcl => by
    rw [cleanSegment, Bool.and_eq_true, Bool.not_eq_true'] at hcl
    have hno : email_lit.isPrefixOf (c :: (rest ++ t)) = false := by
      have h5 : email_lit.length = 5 := rfl
      have h6 := isPrefixOf_append_false (p := email_lit) (s := c :: rest) t
        (by rw [h5]; exact hcl.1)
      rw [List.cons_append] at h6
      exact h6
    rw [List.cons_append, renameFrom_cons_neg (by simp [hno])]
    rw [renameFrom_clean_append rest (wordChar c) t hcl.2]
    rfl

/-- The fixed opening of the matched region header, before `email`. -/
def header_open : List Char := "getButtonConfig: (".data

/-- The fixed tail of the matched region header, after `email`. -/
def header_close : List Char := "?: string): ButtonConfig => \x7b".data

/-- The header as it reads after the scoped rename step. -/
def renamed_header : List Char :=
  "getButtonConfig: (effectiveEmail?: string): ButtonConfig => \x7b".data

lemma function_header_split :
    function_header = header_open ++ email_lit ++ header_close := by decide

lemma renamed_header_split :
    renamed_header = header_open ++ eff_email ++ header_close := by decide

/-- Renaming a matched region rewrites its header: the optional-parameter
`email` of the simplified header is itself renamed (its lookahead `?` is
a recognised trailing context). -/
lemma rename_header (t : List Char) :
    replace_email_in_function (function_header ++ t) =
      renamed_header ++ renameFrom false t := by
  rw [replace_email_in_function_def, function_header_split, renamed_header_split]
  rw [List.append_assoc, List.append_assoc,
    renameFrom_clean_append header_open false (email_lit ++ (header_close ++ t))
      (by decide)]
  have hprev : prevThrough false header_open = false := by decide
  rw [hprev]
  have hcons : email_lit ++ (header_close ++ t) =
      'e' :: ("mail".data ++ (header_close ++ t)) := rfl
  have hcond : (!false && email_lit.isPrefixOf ('e' :: ("mail".data ++ (header_close ++ t)))
      && wordBoundaryAfter (('e' :: ("mail".data ++ (header_close ++ t))).drop 5)
      && emailLookahead (('e' :: ("mail".data ++ (header_close ++ t))).drop 5)) = true := by
    have h1 : email_lit.isPrefixOf ('e' :: ("mail".data ++ (header_close ++ t))) = true := by
      rw [← hcons]
      exact isPrefixOf_self_append _ _
    have h2 : ('e' :: ("mail".data ++ (header_close ++ t))).drop 5 =
        '?' :: (": string): ButtonConfig => \x7b".data ++ t) := rfl
    rw [h1, h2]
    rfl
  rw [hcons, renameFrom_cons_pos hcond, ← hcons]
  have hdrop : (email_lit ++ (header_close ++ t)).drop 5 = header_close ++ t := by
    have h5 : email_lit.length = 5 := rfl
    rw [← h5, List.drop_left]
  rw [hdrop, renameFrom_clean_append header_close true t (by decide)]
  have hprev2 : prevThrough true header_close = false := by decide
  rw [hprev2]
  simp [List.append_assoc]

lemma renameFrom_email_symbol {c : Char} (t : List Char)
    (hw : wordChar c = false) (hl : emailLookahead (c :: t) = true) :
    renameFrom false (email_lit ++ c :: t) = eff_email ++ c :: renameFrom false t := by
  have hcons : email_lit ++ c :: t = 'e' :: ("mail".data ++ c :: t) := rfl
  have hdrop : ('e' :: ("mail".data ++ c :: t)).drop 5 = c :: t := rfl
  have hcond : (!false && email_lit.isPrefixOf ('e' :: ("mail".data ++ c :: t))
      && wordBoundaryAfter (('e' :: ("mail".data ++ c :: t)).drop 5)
      && emailLookahead (('e' :: ("mail".data ++ c :: t)).drop 5)) = true := by
    have h1 : email_lit.isPrefixOf ('e' :: ("mail".data ++ c :: t)) = true := by
      rw [← hcons]
      exact isPrefixOf_self_append _ _
    rw [h1, hdrop, hl, wordBoundaryAfter, hw]
    rfl
  rw [hcons, renameFrom_cons_pos hcond, hdrop]
  rw [renameFrom_cons_neg (by simp), hw]

lemma emailLookahead_qmark (t : List Char) : emailLookahead ('?' :: t) = true := by
  have h1 : lookahead1 ('?' :: t) = true := by
    rw [lookahead1, List.dropWhile_cons, if_neg (by decide : ¬ wsChar '?' = true)]
    rfl
  simp [emailLookahead, h1]

lemma emailLookahead_bang (t : List Char) : emailLookahead ('!' :: t) = true := by
  have h1 : lookahead1 ('!' :: t) = true := by
    rw [lookahead1, List.dropWhile_cons, if_neg (by decide : ¬ wsChar '!' = true)]
    rfl
  simp [emailLookahead, h1]

/-! ### Claim C10: implicit behaviour of the rename lookahead -/

/-- C10: the rename treats a following `?` or `!` as a recognised
trailing context, and consequently the simplified header produced in a
matched region is itself rewritten: wherever the bounded-region pattern
matches, the output of the rename step begins with
`getButtonConfig: (effectiveEmail?: string): ButtonConfig => {`. -/
theorem c10_optional_marker_renamed :
    (∀ t, replace_email_in_function (email_lit ++ '?' :: t) =
        eff_email ++ '?' :: renameFrom false t) ∧
    (∀ t, replace_email_in_function (email_lit ++ '!' :: t) =
        eff_email ++ '!' :: renameFrom false t) ∧
    (∀ (s : List Char) (n : Nat), matchRegionAt s = some n →
        renamed_header.isPrefixOf (replaceEmailRefs s) = true) := by
  refine ⟨?_, ?_, ?_⟩
  · intro t
    rw [replace_email_in_function_def]
    exact renameFrom_email_symbol t (by decide) (emailLookahead_qmark t)
  · intro t
    rw [replace_email_in_function_def]
    exact renameFrom_email_symbol t (by decide) (emailLookahead_bang t)
  · intro s n h
    have h52 : function_header.length = 52 := rfl
    have hpos := matchRegionAt_pos h
    have hle := matchRegionAt_le h
    cases s with
    | nil =>
      simp only [List.length_nil] at hle
      omega
    | cons c rest =>
      obtain ⟨n', rfl⟩ : ∃ n', n = n' + 1 := ⟨n - 1, by omega⟩
      rw [replaceEmailRefs_cons_match h]
      have hpre : function_header.isPrefixOf (c :: rest) = true :=
        (matchRegionAt_eq_some_iff.mp h).1
      have hpre2 : function_header.isPrefixOf ((c :: rest).take (n' + 1)) = true :=
        isPrefixOf_take hpre (by omega)
      have hsplit := prefix_append_drop hpre2
      rw [← hsplit, rename_header, List.append_assoc]
      exact isPrefixOf_self_append _ _

theorem c10_optional_marker_renamed_witness :
    matchRegionAt (function_header ++ ret_marker ++ ['\x7d']) = some 72 ∧
    renamed_header.isPrefixOf
      (replaceEmailRefs (function_header ++ ret_marker ++ ['\x7d'])) = true :=
  ⟨by decide, c10_optional_marker_renamed.2.2 _ 72 (by decide)⟩

/-! ### Claim C3: the recognised trailing contexts.

The claim lists member access, logical negation, boolean-or, boolean-and,
comma, statement terminator, closing parenthesis as the recognised
trailing contexts of the rename.  The following spec-side definitions
formalise "whole-word `email` immediately followed (after optional
whitespace) by one of the listed tokens"; `specListedLookahead` uses
exactly the claim's list, `specLookahead` also admits the `?` that the
code's character class `[?.!]` recognises. -/

/-- The claim's trailing-context tokens, as listed (no `?`): member
access, logical negation, boolean-or, boolean-and, comma, statement
terminator, closing parenthesis. -/
def listedContextToken : List Char → Bool
  | [] => false
  | c :: v =>
    c == '.' || c == '!' || c == ',' || c == ';' || c == ')'
      || (c == '|' && (match v with | d :: _ => d == '|' | [] => false))
      || (c == '&' && (match v with | d :: _ => d == '&' | [] => false))

/-- The trailing-context tokens with the optional-marker `?` added. -/
def fullContextToken : List Char → Bool
  | [] => false
  | c :: v =>
    c == '?' || c == '.' || c == '!' || c == ',' || c == ';' || c == ')'
      || (c == '|' && (match v with | d :: _ => d == '|' | [] => false))
      || (c == '&' && (match v with | d :: _ => d == '&' | [] => false))

/-- Spec reading of the lookahead: skip optional whitespace, then require
one of the claim's trailing-context tokens. -/
def specListedLookahead (ts : List Char) : Bool :=
  listedContextToken (ts.dropWhile wsChar)

/-- Spec reading of the lookahead with `?` admitted. -/
def specLookahead (ts : List Char) : Bool :=
  fullContextToken (ts.dropWhile wsChar)

/-- The rename scan as the spec words it: rename whole-word occurrences
of `email` whose lookahead `look` holds, walking left to right. -/
def specRenameGo (look : List Char → Bool) : Nat → Bool → List Char → List Char
  | 0, _, s => s
  | _ + 1, _, [] => []
  | fuel + 1, prevWord, c :: rest =>
    if !prevWord && email_lit.isPrefixOf (c :: rest)
        && wordBoundaryAfter ((c :: rest).drop 5) && look ((c :: rest).drop 5) then
      eff_email ++ specRenameGo look fuel true ((c :: rest).drop 5)
    else
      c :: specRenameGo look fuel (wordChar c) rest

/-- The rename as claim C3 states it (claimed trailing contexts only). -/
def specListedRename (s : List Char) : List Char :=
  specRenameGo specListedLookahead s.length false s

/-- The rename with `?` added to the trailing contexts. -/
def specFullRename (s : List Char) : List Char :=
  specRenameGo specLookahead s.length false s

/-- The code's alternation lookahead agrees with the spec reading that
admits `?`. -/
lemma lookahead_agree (ts : List Char) : emailLookahead ts = specLookahead ts := by
  rw [emailLookahead, lookahead1, lookahead2, lookahead3, lookahead4, lookahead5,
    lookahead6, specLookahead]
  generalize ts.dropWhile wsChar = u
  cases u with
  | nil => rfl
  | cons c v =>
    cases v with
    | nil =>
      show ((c == '?' || c == '.' || c == '!') || false || false
          || (c == ',') || (c == ';') || (c == ')')) =
        (c == '?' || c == '.' || c == '!' || c == ',' || c == ';' || c == ')'
          || (c == '|' && false) || (c == '&' && false))
      rw [Bool.eq_iff_iff]
      simp only [Bool.or_eq_true, Bool.and_eq_true]
      tauto
    | cons d w =>
      show ((c == '?' || c == '.' || c == '!') || (c == '|' && d == '|')
          || (c == '&' && d == '&') || (c == ',') || (c == ';') || (c == ')')) =
        (c == '?' || c == '.' || c == '!' || c == ',' || c == ';' || c == ')'
          || (c == '|' && d == '|') || (c == '&' && d == '&'))
      rw [Bool.eq_iff_iff]
      simp only [Bool.or_eq_true, Bool.and_eq_true]
      tauto

/-- The code's rename scan coincides with the spec scan whose trailing
contexts include `?`. -/
lemma renameGo_eq_specRenameGo : ∀ (fuel : Nat) (p : Bool) (s : List Char),
    renameGo fuel p s = specRenameGo specLookahead fuel p s := by
  intro fuel
  induction fuel with
  | zero => intro p s; rfl
  | succ fuel ih =>
    intro p s
    cases s with
    | nil => rfl
    | cons c rest =>
      simp only [renameGo, specRenameGo]
      rw [lookahead_agree]
      by_cases hc : (!p && email_lit.isPrefixOf (c :: rest)
          && wordBoundaryAfter ((c :: rest).drop 5)
          && specLookahead ((c :: rest).drop 5)) = true
      · rw [if_pos hc, if_pos hc, ih]
      · rw [if_neg hc, if_neg hc, ih]

/-- C3 counterexample: an occurrence of `email` followed by a bare `?`
(not one of the claim's listed trailing contexts) is nevertheless
rewritten by the code. -/
theorem c3_counterexample :
    replace_email_in_function ((" email?x").data) ≠
      specListedRename ((" email?x").data) ∧
    replace_email_in_function ((" email?x").data) = (" effectiveEmail?x").data ∧
    specListedRename ((" email?x").data) = (" email?x").data :=
  ⟨by decide, by decide, by decide⟩

/-- C3 amended: within each matched region the rename rewrites `email`
to `effectiveEmail` exactly at whole-word occurrences immediately
followed (after optional whitespace) by one of: optional-marker `?`,
member access `.`, `!`, boolean-or `||`, boolean-and `&&`, comma,
statement terminator `;`, or closing parenthesis; in particular every
occurrence of `email` as a proper substring of a longer identifier fails
the word boundary and is left unchanged. -/
theorem c3_amended_trailing_contexts (s : List Char) :
    replace_email_in_function s = specFullRename s := by
  rw [replace_email_in_function_def, renameFrom, specFullRename]
  exact renameGo_eq_specRenameGo s.length false s

/-! ### Overlap side conditions

The idempotence proof rests on the fact that neither replaced text (the
new signature, the renamed header, the inserted `effectiveEmail`) can
take part in a new occurrence of the patterns.  The two combinators
below let the kernel check all suffix/prefix interactions of the
concrete literals at once. -/

/-- Every nonempty suffix of `xs` fails to be a prefix of `N`. -/
def suffixesNoPrefixOf (xs N : List Char) : Bool :=
  match xs with
  | [] => true
  | c :: rest => !((c :: rest).isPrefixOf N) && suffixesNoPrefixOf rest N

/-- `N` is a prefix of no suffix of `xs`. -/
def suffixesNotPrefixedBy (xs N : List Char) : Bool :=
  match xs with
  | [] => !(N.isPrefixOf [])
  | c :: rest => !(N.isPrefixOf (c :: rest)) && suffixesNotPrefixedBy rest N

lemma suffixesNoPrefixOf_spec : ∀ {xs N : List Char},
    suffixesNoPrefixOf xs N = true →
    ∀ p, p <:+ xs → p ≠ [] → p.isPrefixOf N = false := by
  intro xs
  induction xs with
  | nil =>
    intro N _ p hp hne
    exact absurd (List.suffix_nil.mp hp) hne
  | cons c rest ih =>
    intro N h p hp hne
    rw [suffixesNoPrefixOf, Bool.and_eq_true, Bool.not_eq_true'] at h
    rcases List.suffix_cons_iff.mp hp with rfl | hp'
    · exact h.1
    · exact ih h.2 p hp' hne

lemma suffixesNotPrefixedBy_spec : ∀ {xs N : List Char},
    suffixesNotPrefixedBy xs N = true →
    ∀ p, p <:+ xs → N.isPrefixOf p = false := by
  intro xs
  induction xs with
  | nil =>
    intro N h p hp
    rw [suffixesNotPrefixedBy, Bool.not_eq_true'] at h
    rw [List.suffix_nil.mp hp]
    exact h
  | cons c rest ih =>
    intro N h p hp
    rw [suffixesNotPrefixedBy, Bool.and_eq_true, Bool.not_eq_true'] at h
    rcases List.suffix_cons_iff.mp hp with rfl | hp'
    · exact h.1
    · exact ih h.2 p hp'

lemma isPrefixOf_length_le {p s : List Char} (h : p.isPrefixOf s = true) :
    p.length ≤ s.length :=
  (List.isPrefixOf_iff_prefix.mp h).length_le

/-! ### No old-signature occurrence survives the signature replacement -/

/-- A partial old-signature occurrence that continues into the
replacement output must already continue in the original text: the new
signature blocks every crossing. -/
lemma sig_no_cont : ∀ (s : List Char) (p : List Char), p <:+ old_signature → p ≠ [] →
    p.isPrefixOf (replaceSignature s) = true → p.isPrefixOf s = true := by
  intro s
  induction s with
  | nil =>
    intro p hp hne h
    rw [replaceSignature_nil] at h
    exact absurd (List.prefix_nil.mp (List.isPrefixOf_iff_prefix.mp h)) hne
  | cons c rest ih =>
    intro p hp hne h
    by_cases hmatch : old_signature.isPrefixOf (c :: rest) = true
    · rw [replaceSignature_cons_pos hmatch] at h
      rcases isPrefixOf_append_cases h with h1 | ⟨h1, _⟩
      · have := suffixesNoPrefixOf_spec (by decide :
          suffixesNoPrefixOf old_signature new_signature = true) p hp hne
        rw [h1] at this
        exact absurd this (by simp)
      · have := suffixesNotPrefixedBy_spec (by decide :
          suffixesNotPrefixedBy old_signature new_signature = true) p hp
        rw [h1] at this
        exact absurd this (by simp)
    · rw [replaceSignature_cons_neg hmatch] at h
      cases p with
      | nil => exact absurd rfl hne
      | cons d p' =>
        simp only [List.isPrefixOf, Bool.and_eq_true, beq_iff_eq] at h ⊢
        refine ⟨h.1, ?_⟩
        cases p' with
        | nil => cases rest <;> rfl
        | cons e p'' =>
          exact ih (e :: p'') ((List.suffix_cons d (e :: p'')).trans hp)
            (by simp) h.2

/-- No old-signature occurrence can start inside an inserted block `B`
whose suffixes block it. -/
lemma hasOldSignature_append_of : ∀ (B X : List Char),
    (∀ q, q <:+ B → q ≠ [] → old_signature.isPrefixOf (q ++ X) = false) →
    hasOldSignature X = false → hasOldSignature (B ++ X) = false := by
  intro B
  induction B with
  | nil => intro X _ h2; simpa using h2
  | cons a B' ih =>
    intro X h1 h2
    rw [List.cons_append, hasOldSignature, Bool.or_eq_false_iff]
    constructor
    · have h3 := h1 (a :: B') (List.suffix_refl _) (by simp)
      simpa [List.cons_append] using h3
    · exact ih X (fun q hq hne => h1 q (hq.trans (List.suffix_cons a B')) hne) h2

/-- No old-signature occurrence overlaps an inserted copy of the new
signature. -/
lemma sig_blocked_by_new (X : List Char) (hX : hasOldSignature X = false) :
    hasOldSignature (new_signature ++ X) = false := by
  apply hasOldSignature_append_of
  · intro q hq hne
    cases hocc : old_signature.isPrefixOf (q ++ X) with
    | false => rfl
    | true =>
      rcases isPrefixOf_append_cases hocc with h1 | ⟨h1, _⟩
      · have hlen := isPrefixOf_length_le h1
        have hql := hq.length_le
        have hO : old_signature.length = 889 := by decide
        have hN : new_signature.length = 422 := by decide
        omega
      · have h3 := suffixesNoPrefixOf_spec (by decide :
          suffixesNoPrefixOf new_signature old_signature = true) q hq hne
        rw [h1] at h3
        exact absurd h3 (by simp)
  · exact hX

/-- After the signature replacement no occurrence of the old signature
remains anywhere in the text. -/
theorem noOcc_step1 : ∀ s : List Char, hasOldSignature (replaceSignature s) = false
  | [] => by rw [replaceSignature_nil]; rfl
  | c :: rest => by
    by_cases hmatch : old_signature.isPrefixOf (c :: rest) = true
    · rw [replaceSignature_cons_pos hmatch]
      exact sig_blocked_by_new _ (noOcc_step1 ((c :: rest).drop old_signature.length))
    · rw [replaceSignature_cons_neg hmatch]
      rw [hasOldSignature, Bool.or_eq_false_iff]
      refine ⟨?_, noOcc_step1 rest⟩
      cases hocc : old_signature.isPrefixOf (c :: replaceSignature rest) with
      | false => rfl
      | true =>
        have h2 : old_signature.isPrefixOf (replaceSignature (c :: rest)) = true := by
          rw [replaceSignature_cons_neg hmatch]
          exact hocc
        have h3 := sig_no_cont (c :: rest) old_signature (List.suffix_refl _)
          (by decide) h2
        exact absurd h3 hmatch
termination_by s => s.length
decreasing_by
  · have hO : 0 < old_signature.length := by decide
    simp only [List.length_drop, List.length_cons]
    omega
  · simp

/-- C2 amended: the Replace Signature step replaces **every** leftmost
non-overlapping match of the old-signature pattern (not only the first)
by the new simplified header text: the input splits into gap strings
joined by the old signature, the output is the same gap strings joined
by the new header (so all text between and around the matches is
preserved), and no occurrence of the old-signature pattern remains
anywhere in the step's output — in particular no match hides unreplaced
inside a gap. -/
theorem c2_amended_replaces_every_match (s : List Char) :
    ∃ gs : List (List Char), gs ≠ [] ∧ s = joinWith old_signature gs ∧
      replaceSignature s = joinWith new_signature gs ∧
      hasOldSignature (replaceSignature s) = false := by
  obtain ⟨gs, h1, h2, h3⟩ := replaceSignature_decomp s
  exact ⟨gs, h1, h2, h3, noOcc_step1 s⟩

/-! ### The last character of a matched region is the closing brace -/

lemma suffix_getLast {q l : List Char} (hq : q <:+ l) (hne : q ≠ []) :
    q.getLast? = l.getLast? := by
  obtain ⟨w, rfl⟩ := hq
  rw [List.getLast?_append]
  obtain ⟨a, ha⟩ := Option.isSome_iff_exists.mp (List.getLast?_isSome.mpr hne)
  rw [ha]
  rfl

lemma findLazyEnd_last : ∀ {u : List Char} {e : Nat},
    findLazyEnd u = some e → (u.take e).getLast? = some '\x7d' := by
  intro u
  induction u with
  | nil => intro e h; rw [findLazyEnd_nil] at h; exact absurd h (by simp)
  | cons c rest ih =>
    intro e h
    rw [findLazyEnd] at h
    cases hmt : matchTermAt (c :: rest) with
    | some t =>
      rw [hmt] at h
      obtain rfl : t = e := Option.some.inj h
      obtain ⟨hpre, w, heq, ht⟩ := matchTermAt_eq_some_iff.mp hmt
      rw [List.drop_drop] at heq
      set u := c :: rest
      set K := ret_marker.length + ((u.drop ret_marker.length).takeWhile wsChar).length
        with hK
      have hKlen : K < u.length := by
        have h1 := congrArg List.length heq
        simp only [List.length_drop, List.length_cons] at h1 ⊢
        omega
      have hA : (u.take K).length = K := by
        rw [List.length_take]
        omega
      have hu : u.take K ++ '\x7d' :: w = u := by
        conv_rhs => rw [← List.take_append_drop K u]
        rw [heq]
      have htake : u.take (K + 1) = u.take K ++ ['\x7d'] := by
        conv_lhs => rw [← hu]
        rw [List.take_append_eq_append_take, hA]
        have hmin : K + 1 - K = 1 := by omega
        rw [hmin, List.take_take]
        have hmin2 : min (K + 1) K = K := by omega
        rw [hmin2]
        rfl
      rw [ht, htake, List.getLast?_concat]
    | none =>
      rw [hmt] at h
      obtain ⟨e', he', rfl⟩ := Option.map_eq_some'.mp h
      have hpos := findLazyEnd_pos he'
      cases rest with
      | nil => rw [findLazyEnd_nil] at he'; exact absurd he' (by simp)
      | cons d rest' =>
        rw [List.take_succ_cons]
        have hne : (d :: rest').take e' ≠ [] := by
          intro hcontra
          have := congrArg List.length hcontra
          simp only [List.length_take, List.length_nil, List.length_cons] at this
          omega
        cases hx : (d :: rest').take e' with
        | nil => exact absurd hx hne
        | cons y ys =>
          rw [List.getLast?_cons_cons]
          rw [← hx]
          exact ih he'

lemma matchRegionAt_some_last {s : List Char} {n : Nat}
    (h : matchRegionAt s = some n) : (s.take n).getLast? = some '\x7d' := by
  obtain ⟨hpre, e, he, rfl⟩ := matchRegionAt_eq_some_iff.mp h
  rw [List.take_add, List.getLast?_append]
  rw [findLazyEnd_last he]
  rfl

/-- Splitting a matched region around its header: the region is the
header followed by a nonempty tail ending in the closing brace, and its
renamed form is the renamed header followed by the renamed tail. -/
lemma region_match_rename_split {c : Char} {rest : List Char} {n : Nat}
    (hm : matchRegionAt (c :: rest) = some (n + 1)) :
    ∃ t : List Char, (c :: rest).take (n + 1) = function_header ++ t ∧ t ≠ [] ∧
      t.getLast? = some '\x7d' ∧
      replace_email_in_function ((c :: rest).take (n + 1)) =
        renamed_header ++ renameFrom false t := by
  have h52 : function_header.length = 52 := rfl
  obtain ⟨hpre, e, he, hn⟩ := matchRegionAt_eq_some_iff.mp hm
  have hepos := findLazyEnd_pos he
  have hpre2 : function_header.isPrefixOf ((c :: rest).take (n + 1)) = true :=
    isPrefixOf_take hpre (by omega)
  have hsplit := prefix_append_drop hpre2
  have hlen : ((c :: rest).take (n + 1)).length = n + 1 := by
    rw [List.length_take]
    exact Nat.min_eq_left (matchRegionAt_le hm)
  have htne : ((c :: rest).take (n + 1)).drop function_header.length ≠ [] := by
    intro hnil
    have hl := congrArg List.length hnil
    simp only [List.length_drop, hlen, h52, List.length_nil] at hl
    omega
  refine ⟨((c :: rest).take (n + 1)).drop function_header.length, hsplit.symm,
    htne, ?_, ?_⟩
  · rw [suffix_getLast (List.drop_suffix _ _) htne]
    exact matchRegionAt_some_last hm
  · have hrh := rename_header (((c :: rest).take (n + 1)).drop function_header.length)
    rw [hsplit] at hrh
    exact hrh

/-- A partial old-signature occurrence that continues into the rename
output must already continue in the original text. -/
lemma region_no_cont : ∀ (s : List Char) (p : List Char), p <:+ old_signature →
    p ≠ [] → p.isPrefixOf (replaceEmailRefs s) = true → p.isPrefixOf s = true := by
  intro s
  induction s with
  | nil =>
    intro p hp hne h
    rw [replaceEmailRefs_nil] at h
    exact absurd (List.prefix_nil.mp (List.isPrefixOf_iff_prefix.mp h)) hne
  | cons c rest ih =>
    intro p hp hne h
    cases hm : matchRegionAt (c :: rest) with
    | none =>
      rw [replaceEmailRefs_cons_none hm] at h
      cases p with
      | nil => exact absurd rfl hne
      | cons d p' =>
        simp only [List.isPrefixOf, Bool.and_eq_true, beq_iff_eq] at h ⊢
        refine ⟨h.1, ?_⟩
        cases p' with
        | nil => cases rest <;> rfl
        | cons e' p'' =>
          exact ih (e' :: p'') ((List.suffix_cons d (e' :: p'')).trans hp)
            (by simp) h.2
    | some n =>
      cases n with
      | zero => exact absurd (matchRegionAt_pos hm) (by decide)
      | succ n =>
        rw [replaceEmailRefs_cons_match hm] at h
        obtain ⟨t, _, _, _, heq⟩ := region_match_rename_split hm
        rw [heq, List.append_assoc] at h
        rcases isPrefixOf_append_cases h with h1 | ⟨h1, _⟩
        · have h3 := suffixesNoPrefixOf_spec (by decide :
            suffixesNoPrefixOf old_signature renamed_header = true) p hp hne
          rw [h1] at h3
          exact absurd h3 (by simp)
        · have h3 := suffixesNotPrefixedBy_spec (by decide :
            suffixesNotPrefixedBy old_signature renamed_header = true) p hp
          rw [h1] at h3
          exact absurd h3 (by simp)

lemma hasOldSignature_eq_false_of : ∀ {s : List Char},
    (∀ w, w <:+ s → old_signature.isPrefixOf w = false) →
    hasOldSignature s = false := by
  intro s
  induction s with
  | nil => intro _; rfl
  | cons c rest ih =>
    intro h
    rw [hasOldSignature, Bool.or_eq_false_iff]
    exact ⟨h (c :: rest) (List.suffix_refl _),
      ih (fun w hw => h w (hw.trans (List.suffix_cons c rest)))⟩

lemma hasOldSignature_suffix_false : ∀ {s : List Char},
    hasOldSignature s = false → ∀ w, w <:+ s → old_signature.isPrefixOf w = false := by
  intro s
  induction s with
  | nil =>
    intro _ w hw
    rw [List.suffix_nil.mp hw]
    rfl
  | cons c rest ih =>
    intro h w hw
    rw [hasOldSignature, Bool.or_eq_false_iff] at h
    rcases List.suffix_cons_iff.mp hw with rfl | hw'
    · exact h.1
    · exact ih h.2 w hw'

/-- A partial old-signature occurrence that continues into a renamed
region's output (and possibly further, into the rename step's output for
the remainder `v`) already continues in the region's own text followed
by `v`: the inserted `effectiveEmail` blocks every crossing. -/
lemma rename_cont (v : List Char)
    (hcont : ∀ q, q <:+ old_signature → q ≠ [] →
      q.isPrefixOf (replaceEmailRefs v) = true → q.isPrefixOf v = true) :
    ∀ (t : List Char), ∀ (prev : Bool) (p : List Char), p <:+ old_signature → p ≠ [] →
      p.isPrefixOf (renameFrom prev t ++ replaceEmailRefs v) = true →
      p.isPrefixOf (t ++ v) = true := by
  intro t
  induction t with
  | nil =>
    intro prev p hp hne h
    rw [renameFrom_nil, List.nil_append] at h
    rw [List.nil_append]
    exact hcont p hp hne h
  | cons c t' ih =>
    intro prev p hp hne h
    by_cases hcond : (!prev && email_lit.isPrefixOf (c :: t')
        && wordBoundaryAfter ((c :: t').drop 5)
        && emailLookahead ((c :: t').drop 5)) = true
    · rw [renameFrom_cons_pos hcond, List.append_assoc] at h
      rcases isPrefixOf_append_cases h with h1 | ⟨h1, _⟩
      · have h3 := suffixesNoPrefixOf_spec (by decide :
          suffixesNoPrefixOf old_signature eff_email = true) p hp hne
        rw [h1] at h3
        exact absurd h3 (by simp)
      · have h3 := suffixesNotPrefixedBy_spec (by decide :
          suffixesNotPrefixedBy old_signature eff_email = true) p hp
        rw [h1] at h3
        exact absurd h3 (by simp)
    · rw [renameFrom_cons_neg hcond, List.cons_append] at h
      cases p with
      | nil => exact absurd rfl hne
      | cons d p' =>
        simp only [List.cons_append, List.isPrefixOf, Bool.and_eq_true,
          beq_iff_eq] at h ⊢
        refine ⟨h.1, ?_⟩
        cases p' with
        | nil => exact nil_isPrefixOf _
        | cons e' p'' =>
          exact ih (wordChar c) (e' :: p'')
            ((List.suffix_cons d (e' :: p'')).trans hp) (by simp) h.2

/-- The rename output of a region, followed by the rename step's output
for the remainder, contains no old-signature occurrence, provided the
region text and remainder are occurrence-free. -/
lemma rename_append_no_O (v : List Char)
    (hout : hasOldSignature (replaceEmailRefs v) = false)
    (hcont : ∀ q, q <:+ old_signature → q ≠ [] →
      q.isPrefixOf (replaceEmailRefs v) = true → q.isPrefixOf v = true) :
    ∀ (t : List Char) (prev : Bool),
      (∀ w, w <:+ t ++ v → old_signature.isPrefixOf w = false) →
      hasOldSignature (renameFrom prev t ++ replaceEmailRefs v) = false
  | [], prev, _ => by rw [renameFrom_nil, List.nil_append]; exact hout
  | c :: t', prev, hfree => by
    by_cases hcond : (!prev && email_lit.isPrefixOf (c :: t')
        && wordBoundaryAfter ((c :: t').drop 5)
        && emailLookahead ((c :: t').drop 5)) = true
    · rw [renameFrom_cons_pos hcond, List.append_assoc]
      apply hasOldSignature_append_of
      · intro q hq hne
        cases hocc : old_signature.isPrefixOf
            (q ++ (renameFrom true ((c :: t').drop 5) ++ replaceEmailRefs v)) with
        | false => rfl
        | true =>
          rcases isPrefixOf_append_cases hocc with h1 | ⟨h1, _⟩
          · have hlen := isPrefixOf_length_le h1
            have hql := hq.length_le
            have hO : old_signature.length = 889 := by decide
            have hI : eff_email.length = 14 := by decide
            omega
          · have h3 := suffixesNoPrefixOf_spec (by decide :
              suffixesNoPrefixOf eff_email old_signature = true) q hq hne
            rw [h1] at h3
            exact absurd h3 (by simp)
      · apply rename_append_no_O v hout hcont ((c :: t').drop 5) true
        intro w hw
        apply hfree
        refine hw.trans ?_
        obtain ⟨w2, hw2⟩ := List.drop_suffix 5 (c :: t')
        exact ⟨w2, by rw [← List.append_assoc, hw2]⟩
    · rw [renameFrom_cons_neg hcond, List.cons_append, hasOldSignature,
        Bool.or_eq_false_iff]
      constructor
      · cases hocc : old_signature.isPrefixOf
            (c :: (renameFrom (wordChar c) t' ++ replaceEmailRefs v)) with
        | false => rfl
        | true =>
          have h2 : old_signature.isPrefixOf
              (renameFrom prev (c :: t') ++ replaceEmailRefs v) = true := by
            rw [renameFrom_cons_neg hcond, List.cons_append]
            exact hocc
          have h3 := rename_cont v hcont (c :: t') prev old_signature
            (List.suffix_refl _) (by decide) h2
          have h4 := hfree ((c :: t') ++ v) (List.suffix_refl _)
          rw [h3] at h4
          exact absurd h4 (by simp)
      · exact rename_append_no_O v hout hcont t' (wordChar c)
          (fun w hw => hfree w (hw.trans ⟨[c], rfl⟩))
termination_by t => t.length
decreasing_by
  · simp only [List.length_drop, List.length_cons]
    omega
  · simp

/-- The scoped rename step preserves absence of the old signature. -/
theorem noOcc_step2 : ∀ s : List Char, hasOldSignature s = false →
    hasOldSignature (replaceEmailRefs s) = false
  | [], _ => by rw [replaceEmailRefs_nil]; rfl
  | c :: rest, hfree => by
    have hfree' : hasOldSignature rest = false := by
      rw [hasOldSignature, Bool.or_eq_false_iff] at hfree
      exact hfree.2
    cases hm : matchRegionAt (c :: rest) with
    | none =>
      rw [replaceEmailRefs_cons_none hm, hasOldSignature, Bool.or_eq_false_iff]
      refine ⟨?_, noOcc_step2 rest hfree'⟩
      cases hocc : old_signature.isPrefixOf (c :: replaceEmailRefs rest) with
      | false => rfl
      | true =>
        have h2 : old_signature.isPrefixOf (replaceEmailRefs (c :: rest)) = true := by
          rw [replaceEmailRefs_cons_none hm]
          exact hocc
        have h3 := region_no_cont (c :: rest) old_signature (List.suffix_refl _)
          (by decide) h2
        have h4 := hasOldSignature_suffix_false hfree (c :: rest) (List.suffix_refl _)
        rw [h3] at h4
        exact absurd h4 (by simp)
    | some n =>
      cases n with
      | zero => exact absurd (matchRegionAt_pos hm) (by decide)
      | succ n =>
        rw [replaceEmailRefs_cons_match hm]
        obtain ⟨t, hsplit, _, _, heq⟩ := region_match_rename_split hm
        rw [heq, List.append_assoc]
        have hsufv : function_header ++ (t ++ (c :: rest).drop (n + 1)) = c :: rest := by
          rw [← List.append_assoc, ← hsplit, List.take_append_drop]
        apply hasOldSignature_append_of
        · intro q hq hne
          cases hocc : old_signature.isPrefixOf
              (q ++ (renameFrom false t ++ replaceEmailRefs ((c :: rest).drop (n + 1)))) with
          | false => rfl
          | true =>
            rcases isPrefixOf_append_cases hocc with h1 | ⟨h1, _⟩
            · have hlen := isPrefixOf_length_le h1
              have hql := hq.length_le
              have hO : old_signature.length = 889 := by decide
              have hR : renamed_header.length = 61 := by decide
              omega
            · have h3 := suffixesNoPrefixOf_spec (by decide :
                suffixesNoPrefixOf renamed_header old_signature = true) q hq hne
              rw [h1] at h3
              exact absurd h3 (by simp)
        · apply rename_append_no_O ((c :: rest).drop (n + 1))
            (noOcc_step2 ((c :: rest).drop (n + 1))
              (hasOldSignature_eq_false_of (fun w hw =>
                hasOldSignature_suffix_false hfree w
                  (hw.trans (List.drop_suffix (n + 1) (c :: rest))))))
            (fun q hq hne h => region_no_cont _ q hq hne h) t false
            (fun w hw => hasOldSignature_suffix_false hfree w
              (hw.trans ⟨function_header, hsufv⟩))
termination_by s => s.length
decreasing_by
  · simp
  · simp only [List.length_drop, List.length_cons]
    omega

/-! ### No region match survives the rename step -/

lemma findLazyEnd_none_cons {c : Char} {rest : List Char}
    (h : findLazyEnd (c :: rest) = none) :
    matchTermAt (c :: rest) = none ∧ findLazyEnd rest = none := by
  rw [findLazyEnd] at h
  cases hmt : matchTermAt (c :: rest) with
  | some t => rw [hmt] at h; exact absurd h (by simp)
  | none =>
    rw [hmt] at h
    exact ⟨rfl, Option.map_eq_none'.mp h⟩

lemma findLazyEnd_none_drop : ∀ {u : List Char}, findLazyEnd u = none →
    ∀ k, findLazyEnd (u.drop k) = none := by
  intro u
  induction u with
  | nil => intro h k; simpa using h
  | cons c rest ih =>
    intro h k
    cases k with
    | zero => exact h
    | succ k => exact ih (findLazyEnd_none_cons h).2 k

lemma noTerm_no_region {u : List Char} (h : findLazyEnd u = none) :
    ∀ i, matchRegionAt (u.drop i) = none := by
  intro i
  rw [matchRegionAt]
  cases hpre : function_header.isPrefixOf (u.drop i) with
  | false => simp [hpre]
  | true =>
    simp only [hpre, if_true]
    rw [List.drop_drop, findLazyEnd_none_drop h _]
    rfl

lemma hasRegionMatch_eq_false_of_drops : ∀ {s : List Char},
    (∀ i, matchRegionAt (s.drop i) = none) → hasRegionMatch s = false := by
  intro s
  induction s with
  | nil => intro _; rfl
  | cons c rest ih =>
    intro h
    rw [hasRegionMatch, Bool.or_eq_false_iff]
    refine ⟨?_, ih (fun i => h (i + 1))⟩
    have h0 := h 0
    rw [List.drop_zero] at h0
    rw [h0]
    rfl

/-- A partial header occurrence that continues into the rename output
already continues in the original text: the renamed header blocks every
crossing. -/
lemma hdr_cont : ∀ (s : List Char) (q : List Char), q <:+ function_header →
    q ≠ [] → q.isPrefixOf (replaceEmailRefs s) = true → q.isPrefixOf s = true := by
  intro s
  induction s with
  | nil =>
    intro q hq hne h
    rw [replaceEmailRefs_nil] at h
    exact absurd (List.prefix_nil.mp (List.isPrefixOf_iff_prefix.mp h)) hne
  | cons c rest ih =>
    intro q hq hne h
    cases hm : matchRegionAt (c :: rest) with
    | none =>
      rw [replaceEmailRefs_cons_none hm] at h
      cases q with
      | nil => exact absurd rfl hne
      | cons d q' =>
        simp only [List.isPrefixOf, Bool.and_eq_true, beq_iff_eq] at h ⊢
        refine ⟨h.1, ?_⟩
        cases q' with
        | nil => exact nil_isPrefixOf _
        | cons e' q'' =>
          exact ih (e' :: q'') ((List.suffix_cons d (e' :: q'')).trans hq)
            (by simp) h.2
    | some n =>
      cases n with
      | zero => exact absurd (matchRegionAt_pos hm) (by decide)
      | succ n =>
        rw [replaceEmailRefs_cons_match hm] at h
        obtain ⟨t, _, _, _, heq⟩ := region_match_rename_split hm
        rw [heq, List.append_assoc] at h
        rcases isPrefixOf_append_cases h with h1 | ⟨h1, _⟩
        · have h3 := suffixesNoPrefixOf_spec (by decide :
            suffixesNoPrefixOf function_header renamed_header = true) q hq hne
          rw [h1] at h3
          exact absurd h3 (by simp)
        · have h3 := suffixesNotPrefixedBy_spec (by decide :
            suffixesNotPrefixedBy function_header renamed_header = true) q hq
          rw [h1] at h3
          exact absurd h3 (by simp)

/-- If the region pattern fails at a position, it still fails there after
the remainder of the text has been rewritten by the rename step. -/
lemma gap_preserved {c : Char} {rest : List Char}
    (hm : matchRegionAt (c :: rest) = none) :
    matchRegionAt (c :: replaceEmailRefs rest) = none := by
  have h52 : function_header.length = 52 := rfl
  cases hpre : function_header.isPrefixOf (c :: replaceEmailRefs rest) with
  | false => rw [matchRegionAt]; simp [hpre]
  | true =>
    have hpre0 : function_header.isPrefixOf (c :: rest) = true := by
      cases hh : function_header with
      | nil => exact absurd hh (by decide)
      | cons g hdrTail =>
        rw [hh] at hpre
        simp only [List.isPrefixOf, Bool.and_eq_true, beq_iff_eq] at hpre ⊢
        refine ⟨hpre.1, ?_⟩
        have htne : hdrTail ≠ [] := by
          intro hnil
          have := congrArg List.length hh
          rw [hnil] at this
          simp [h52] at this
        have hsuf : hdrTail <:+ function_header := by
          rw [hh]
          exact List.suffix_cons g hdrTail
        exact hdr_cont rest hdrTail hsuf htne hpre.2
    have hfle : findLazyEnd ((c :: rest).drop function_header.length) = none := by
      rw [matchRegionAt, hpre0] at hm
      simp only [if_true] at hm
      exact Option.map_eq_none'.mp hm
    have hfle51 : findLazyEnd (rest.drop 51) = none := by
      rw [h52] at hfle
      exact hfle
    have hnomatch : ∀ i, matchRegionAt (rest.drop i) = none := by
      intro i
      rw [matchRegionAt]
      cases hp2 : function_header.isPrefixOf (rest.drop i) with
      | false => simp [hp2]
      | true =>
        simp only [hp2, if_true]
        have hdd : (rest.drop i).drop function_header.length =
            (rest.drop 51).drop (i + 1) := by
          rw [List.drop_drop, List.drop_drop, h52]
          congr 1
          omega
        rw [hdd, findLazyEnd_none_drop hfle51 (i + 1)]
        rfl
    rw [replaceEmailRefs_eq_self (hasRegionMatch_eq_false_of_drops hnomatch)]
    exact hm

/-- One skip step of the scan when the previous character is a word
character (the leading `\b` fails, so nothing can be renamed). -/
lemma renameFrom_true_cons (c : Char) (r : List Char) :
    renameFrom true (c :: r) = c :: renameFrom (wordChar c) r :=
  renameFrom_cons_neg (by simp)

/-- The scan never leaves a whole-word `email` followed by `?` in its
output: scanning from a non-word position, such an occurrence would have
been renamed. -/
lemma sq_no_email_q : ∀ r : List Char,
    ("email?".data).isPrefixOf (renameFrom false r) = false := by
  intro r
  cases r with
  | nil => rfl
  | cons c r' =>
    by_cases hcond : (!false && email_lit.isPrefixOf (c :: r')
        && wordBoundaryAfter ((c :: r').drop 5)
        && emailLookahead ((c :: r').drop 5)) = true
    · rw [renameFrom_cons_pos hcond]
      cases hocc : ("email?".data).isPrefixOf
          (eff_email ++ renameFrom true ((c :: r').drop 5)) with
      | false => rfl
      | true =>
        rcases isPrefixOf_append_cases hocc with h1 | ⟨h1, _⟩
        · exact absurd h1 (by decide)
        · exact absurd h1 (by decide)
    · rw [renameFrom_cons_neg hcond]
      cases hocc : ("email?".data).isPrefixOf (c :: renameFrom (wordChar c) r') with
      | false => rfl
      | true =>
        exfalso
        simp only [show ("email?".data) = 'e' :: ("mail?".data) from rfl,
          List.isPrefixOf, Bool.and_eq_true, beq_iff_eq] at hocc
        obtain ⟨rfl, h1⟩ := hocc
        rw [show wordChar 'e' = true from rfl] at h1
        cases r' with
        | nil => exact absurd h1 (by decide)
        | cons d2 r2 =>
          rw [renameFrom_true_cons] at h1
          simp only [show ("mail?".data) = 'm' :: ("ail?".data) from rfl,
            List.isPrefixOf, Bool.and_eq_true, beq_iff_eq] at h1
          obtain ⟨rfl, h1⟩ := h1
          rw [show wordChar 'm' = true from rfl] at h1
          cases r2 with
          | nil => exact absurd h1 (by decide)
          | cons d3 r3 =>
            rw [renameFrom_true_cons] at h1
            simp only [show ("ail?".data) = 'a' :: ("il?".data) from rfl,
              List.isPrefixOf, Bool.and_eq_true, beq_iff_eq] at h1
            obtain ⟨rfl, h1⟩ := h1
            rw [show wordChar 'a' = true from rfl] at h1
            cases r3 with
            | nil => exact absurd h1 (by decide)
            | cons d4 r4 =>
              rw [renameFrom_true_cons] at h1
              simp only [show ("il?".data) = 'i' :: ("l?".data) from rfl,
                List.isPrefixOf, Bool.and_eq_true, beq_iff_eq] at h1
              obtain ⟨rfl, h1⟩ := h1
              rw [show wordChar 'i' = true from rfl] at h1
              cases r4 with
              | nil => exact absurd h1 (by decide)
              | cons d5 r5 =>
                rw [renameFrom_true_cons] at h1
                simp only [show ("l?".data) = 'l' :: ("?".data) from rfl,
                  List.isPrefixOf, Bool.and_eq_true, beq_iff_eq] at h1
                obtain ⟨rfl, h1⟩ := h1
                rw [show wordChar 'l' = true from rfl] at h1
                cases r5 with
                | nil => exact absurd h1 (by decide)
                | cons d6 r6 =>
                  rw [renameFrom_true_cons] at h1
                  simp only [show ("?".data) = '?' :: ([] : List Char) from rfl,
                    List.isPrefixOf, Bool.and_eq_true, beq_iff_eq] at h1
                  obtain ⟨rfl, _⟩ := h1
                  apply hcond
                  have hb : wordBoundaryAfter
                      (('e' :: 'm' :: 'a' :: 'i' :: 'l' :: '?' :: r6).drop 5) = true := rfl
                  have hl := emailLookahead_qmark r6
                  have hp : email_lit.isPrefixOf
                      ('e' :: 'm' :: 'a' :: 'i' :: 'l' :: '?' :: r6) = true := rfl
                  rw [hp, hb]
                  rw [show (('e' :: 'm' :: 'a' :: 'i' :: 'l' :: '?' :: r6).drop 5) =
                    '?' :: r6 from rfl]
                  rw [hl]
                  rfl

/-- Every character of `effectiveEmail` is a word character. -/
lemma eff_email_all_word : ∀ d ∈ eff_email, wordChar d = true := by decide

/-- In the output of the rename scan, the character immediately before a
whole-word `email?` is always a word character: a non-word character
there would have triggered the rename. -/
lemma rename_word_before_email : ∀ (t : List Char) (prev : Bool) (j : Nat) (c0 : Char),
    (c0 :: ("email?".data)).isPrefixOf ((renameFrom prev t).drop j) = true →
    wordChar c0 = true
  | [], prev, j, c0 => by
    intro h
    rw [renameFrom_nil, List.drop_nil] at h
    exact absurd h (by simp [List.isPrefixOf])
  | c :: t', prev, j, c0 => by
    intro h
    by_cases hcond : (!prev && email_lit.isPrefixOf (c :: t')
        && wordBoundaryAfter ((c :: t').drop 5)
        && emailLookahead ((c :: t').drop 5)) = true
    · rw [renameFrom_cons_pos hcond, List.drop_append_eq_append_drop] at h
      cases hd : eff_email.drop j with
      | nil =>
        rw [hd, List.nil_append] at h
        exact rename_word_before_email ((c :: t').drop 5) true
          (j - eff_email.length) c0 h
      | cons d w =>
        rw [hd, List.cons_append] at h
        simp only [List.isPrefixOf, Bool.and_eq_true, beq_iff_eq] at h
        obtain ⟨rfl, _⟩ := h
        have hmem : c0 ∈ eff_email := by
          have hsuf : (c0 :: w) <:+ eff_email := hd ▸ List.drop_suffix j eff_email
          exact hsuf.subset (by simp)
        exact eff_email_all_word c0 hmem
    · rw [renameFrom_cons_neg hcond] at h
      cases j with
      | zero =>
        rw [List.drop_zero] at h
        simp only [List.isPrefixOf, Bool.and_eq_true, beq_iff_eq] at h
        obtain ⟨rfl, h1⟩ := h
        cases hw : wordChar c0 with
        | true => rfl
        | false =>
          rw [hw] at h1
          rw [sq_no_email_q t'] at h1
          exact absurd h1 (by simp)
      | succ j' =>
        rw [List.drop_succ_cons] at h
        exact rename_word_before_email t' (wordChar c) j' c0 h
termination_by t => t.length
decreasing_by
  · simp only [List.length_drop, List.length_cons]
    omega
  · simp

/-- The rename output never contains `(email?`. -/
lemma rename_no_paren_email (t : List Char) (prev : Bool) (j : Nat) :
    ("(email?".data).isPrefixOf ((renameFrom prev t).drop j) = false := by
  cases h : ("(email?".data).isPrefixOf ((renameFrom prev t).drop j) with
  | false => rfl
  | true =>
    have h2 : ('(' :: ("email?".data)).isPrefixOf ((renameFrom prev t).drop j) = true := h
    have h3 := rename_word_before_email t prev j '(' h2
    exact absurd h3 (by decide)

/-- Extending region-match-freeness across a prepended block, given that
no region match starts inside the block. -/
lemma hasRegionMatch_append_of : ∀ (B X : List Char),
    (∀ q, q <:+ B → q ≠ [] → matchRegionAt (q ++ X) = none) →
    hasRegionMatch X = false → hasRegionMatch (B ++ X) = false := by
  intro B
  induction B with
  | nil => intro X _ h2; simpa using h2
  | cons a B' ih =>
    intro X h1 h2
    rw [List.cons_append, hasRegionMatch, Bool.or_eq_false_iff]
    constructor
    · have h0 := h1 (a :: B') (List.suffix_refl _) (by simp)
      rw [List.cons_append] at h0
      rw [h0]
      rfl
    · exact ih X (fun q hq hne => h1 q (hq.trans (List.suffix_cons a B')) hne) h2

/-- Dropping the same number of characters from a prefix and its host
preserves the prefix relation. -/
lemma isPrefixOf_drop_shift {p w : List Char} (k : Nat)
    (h : p.isPrefixOf w = true) : (p.drop k).isPrefixOf (w.drop k) = true := by
  obtain ⟨v, rfl⟩ := List.isPrefixOf_iff_prefix.mp h
  rw [List.drop_append_eq_append_drop]
  exact isPrefixOf_self_append _ _

/-- Every suffix is a drop. -/
lemma suffix_eq_drop {q l : List Char} (h : q <:+ l) : ∃ j, q = l.drop j := by
  obtain ⟨w, rfl⟩ := h
  exact ⟨w.length, (List.drop_left w q).symm⟩

/-- The rename scan preserves the last character of a nonempty text: a
rename step always leaves the lookahead character behind. -/
lemma renameFrom_last : ∀ (t : List Char) (prev : Bool), t ≠ [] →
    (renameFrom prev t).getLast? = t.getLast?
  | [], _, hne => absurd rfl hne
  | c :: t', prev, _ => by
    by_cases hcond : (!prev && email_lit.isPrefixOf (c :: t')
        && wordBoundaryAfter ((c :: t').drop 5)
        && emailLookahead ((c :: t').drop 5)) = true
    · rw [renameFrom_cons_pos hcond]
      have hlk : emailLookahead ((c :: t').drop 5) = true := by
        simp only [Bool.and_eq_true] at hcond
        exact hcond.2
      have hdne : (c :: t').drop 5 ≠ [] := by
        intro hnil
        rw [hnil] at hlk
        exact absurd hlk (by decide)
      have hrec := renameFrom_last ((c :: t').drop 5) true hdne
      have hdl : ((c :: t').drop 5).getLast? = (c :: t').getLast? :=
        suffix_getLast (List.drop_suffix 5 (c :: t')) hdne
      obtain ⟨a, ha⟩ := Option.isSome_iff_exists.mp (List.getLast?_isSome.mpr hdne)
      rw [List.getLast?_append, hrec, ha, ← hdl, ha]
      rfl
    · rw [renameFrom_cons_neg hcond]
      cases t' with
      | nil => rw [renameFrom_nil]
      | cons d t'' =>
        have hrec := renameFrom_last (d :: t'') (wordChar c) (by simp)
        have hne2 : renameFrom (wordChar c) (d :: t'') ≠ [] := by
          intro hnil
          rw [hnil] at hrec
          obtain ⟨a, ha⟩ := Option.isSome_iff_exists.mp
            (List.getLast?_isSome.mpr (by simp : (d :: t'') ≠ ([] : List Char)))
          rw [ha] at hrec
          exact absurd hrec (by simp)
        cases hX : renameFrom (wordChar c) (d :: t'') with
        | nil => exact absurd hX hne2
        | cons x xs =>
          rw [hX] at hrec
          rw [List.getLast?_cons_cons, hrec, List.getLast?_cons_cons]
termination_by t => t.length
decreasing_by
  · simp only [List.length_drop, List.length_cons]
    omega
  · simp_all

/-- No region match starts inside the renamed header block. -/
lemma rh_block_no_region (X : List Char) :
    ∀ q, q <:+ renamed_header → q ≠ [] → matchRegionAt (q ++ X) = none := by
  intro q hq hne
  cases hpre : function_header.isPrefixOf (q ++ X) with
  | false => rw [matchRegionAt]; simp [hpre]
  | true =>
    exfalso
    rcases isPrefixOf_append_cases hpre with h1 | ⟨h1, _⟩
    · have h3 := suffixesNotPrefixedBy_spec (by decide :
        suffixesNotPrefixedBy renamed_header function_header = true) q hq
      rw [h1] at h3
      exact absurd h3 (by simp)
    · have h3 := suffixesNoPrefixOf_spec (by decide :
        suffixesNoPrefixOf renamed_header function_header = true) q hq hne
      rw [h1] at h3
      exact absurd h3 (by simp)

/-- No region match starts inside the renamed body block of a region
whose body ends with the closing brace. -/
lemma rename_block_no_region (t : List Char) (htl : t.getLast? = some '\x7d')
    (htne : t ≠ []) (X : List Char) :
    ∀ q, q <:+ renameFrom false t → q ≠ [] → matchRegionAt (q ++ X) = none := by
  intro q hq hne
  cases hpre : function_header.isPrefixOf (q ++ X) with
  | false => rw [matchRegionAt]; simp [hpre]
  | true =>
    exfalso
    rcases isPrefixOf_append_cases hpre with h1 | ⟨h1, _⟩
    · obtain ⟨j, rfl⟩ := suffix_eq_drop hq
      have h2 := isPrefixOf_drop_shift 17 h1
      rw [List.drop_drop] at h2
      have h3 : ("(email?".data).isPrefixOf (function_header.drop 17) = true := by
        decide
      have h4 := isPrefixOf_trans h3 h2
      rw [rename_no_paren_email t false (j + 17)] at h4
      exact absurd h4 (by simp)
    · have hql : q.getLast? = some '\x7d' := by
        rw [suffix_getLast hq hne, renameFrom_last t false htne, htl]
      have hmem0 : '\x7d' ∈ q.getLast? := by rw [Option.mem_def, hql]
      obtain ⟨hq0, heq0⟩ := List.mem_getLast?_eq_getLast hmem0
      have hmem : '\x7d' ∈ q := heq0 ▸ List.getLast_mem hq0
      have hsub := (List.isPrefixOf_iff_prefix.mp h1).subset hmem
      exact absurd hsub (by decide)

/-- The rename step leaves no match of the bounded-region pattern in its
output. -/
theorem noRegion_step2 : ∀ s : List Char, hasRegionMatch (replaceEmailRefs s) = false
  | [] => by rw [replaceEmailRefs_nil]; rfl
  | c :: rest => by
    cases hm : matchRegionAt (c :: rest) with
    | none =>
      rw [replaceEmailRefs_cons_none hm, hasRegionMatch, Bool.or_eq_false_iff]
      refine ⟨?_, noRegion_step2 rest⟩
      rw [gap_preserved hm]
      rfl
    | some n =>
      cases n with
      | zero => exact absurd (matchRegionAt_pos hm) (by decide)
      | succ n =>
        rw [replaceEmailRefs_cons_match hm]
        obtain ⟨t, _, htne, htl, heq⟩ := region_match_rename_split hm
        rw [heq, List.append_assoc]
        apply hasRegionMatch_append_of
        · exact rh_block_no_region _
        · apply hasRegionMatch_append_of
          · exact rename_block_no_region t htl htne _
          · exact noRegion_step2 ((c :: rest).drop (n + 1))
termination_by s => s.length
decreasing_by
  · simp
  · simp only [List.length_drop, List.length_cons]
    omega

/-! ### Claim C5: confirmed -/

/-- C5: the full content transformation (signature replacement followed
by the scoped identifier rename) is idempotent: applying it to its own
output yields the same text.  The first step's output contains no match
of the old-signature pattern, and the rename step's output contains no
match of the bounded-region pattern, so both steps of the second run are
no-ops. -/
theorem c5_transformation_idempotent (x : List Char) :
    fixContent (fixContent x) = fixContent x := by
  have hz1 : hasOldSignature (fixContent x) = false :=
    noOcc_step2 (replaceSignature x) (noOcc_step1 x)
  have hz2 : hasRegionMatch (fixContent x) = false :=
    noRegion_step2 (replaceSignature x)
  show replaceEmailRefs (replaceSignature (fixContent x)) = fixContent x
  rw [replaceSignature_eq_self hz1, replaceEmailRefs_eq_self hz2]

/-! ### Claim C6: corrected.

The claim asserts that the output is always the input with *at most two*
substring regions replaced (one old-signature match and one bounded
function region).  Since both `re.sub` calls replace every leftmost
non-overlapping match, an input with two old-signature occurrences has
both replaced, violating the claim.  The following definitions enumerate
all outputs the claim would allow for a given input. -/

/-- All results of replacing exactly one old-signature occurrence of the
scanned suffix by the new signature, leaving every other character
unchanged; `pre` is the reversed already-scanned prefix. -/
def oneSigOutputsAux (pre : List Char) : List Char → List (List Char)
  | [] => []
  | c :: rest =>
    (if old_signature.isPrefixOf (c :: rest) then
      [pre.reverse ++ new_signature ++ (c :: rest).drop old_signature.length]
    else []) ++ oneSigOutputsAux (c :: pre) rest

/-- All results of replacing exactly one old-signature occurrence of `x`
by the new signature, leaving every other character unchanged. -/
def oneSigOutputs (x : List Char) : List (List Char) := oneSigOutputsAux [] x

/-- All results of replacing exactly one bounded-region match of the
scanned suffix by its renamed form; `pre` is the reversed
already-scanned prefix. -/
def oneRegionOutputsAux (pre : List Char) : List Char → List (List Char)
  | [] => []
  | c :: rest =>
    (match matchRegionAt (c :: rest) with
     | some n =>
       [pre.reverse ++ replace_email_in_function ((c :: rest).take n) ++ (c :: rest).drop n]
     | none => []) ++ oneRegionOutputsAux (c :: pre) rest

/-- All results of replacing exactly one bounded-region match of `x` by
its renamed form, leaving every other character unchanged. -/
def oneRegionOutputs (x : List Char) : List (List Char) := oneRegionOutputsAux [] x

/-- All results of replacing one old-signature occurrence and, after it,
one bounded-region match. -/
def sigThenRegionOutputsAux (pre : List Char) : List Char → List (List Char)
  | [] => []
  | c :: rest =>
    (if old_signature.isPrefixOf (c :: rest) then
      oneRegionOutputsAux (new_signature.reverse ++ pre)
        ((c :: rest).drop old_signature.length)
    else []) ++ sigThenRegionOutputsAux (c :: pre) rest

def sigThenRegionOutputs (x : List Char) : List (List Char) :=
  sigThenRegionOutputsAux [] x

/-- All results of replacing one bounded-region match and, after it, one
old-signature occurrence. -/
def regionThenSigOutputsAux (pre : List Char) : List Char → List (List Char)
  | [] => []
  | c :: rest =>
    (match matchRegionAt (c :: rest) with
     | some n =>
       oneSigOutputsAux ((replace_email_in_function ((c :: rest).take n)).reverse ++ pre)
         ((c :: rest).drop n)
     | none => []) ++ regionThenSigOutputsAux (c :: pre) rest

def regionThenSigOutputs (x : List Char) : List (List Char) :=
  regionThenSigOutputsAux [] x

/-- Claim C6 as stated, at input `x`: the output equals the input with at
most one old-signature region and at most one bounded function region
replaced, every character outside them identical. -/
def c6ClaimAt (x : List Char) : Prop :=
  fixContent x = x ∨ fixContent x ∈ oneSigOutputs x ∨
    fixContent x ∈ oneRegionOutputs x ∨
    fixContent x ∈ sigThenRegionOutputs x ∨
    fixContent x ∈ regionThenSigOutputs x

/-- C6 counterexample: on an input holding two old-signature occurrences,
the tool replaces both, so the output is not the input with at most two
regions (one per pattern) replaced. -/
theorem c6_counterexample : ¬ c6ClaimAt (old_signature ++ 'Z' :: old_signature) := by
  unfold c6ClaimAt
  decide

/-- C6 amended: the output is the input with *every* leftmost
non-overlapping old-signature match replaced by the new signature and
then *every* leftmost non-overlapping bounded-region match replaced by
its renamed form; if a pattern fails to match, that transformation is a
no-op, and all text outside the replaced matches is untouched.  The
residual-freeness conjuncts pin down "every match": no old-signature
occurrence remains after the first step and no bounded-region match
remains in the final output, so no unreplaced match hides inside a gap
string of either decomposition. -/
theorem c6_amended_output_structure (x : List Char) :
    ∃ gs : List (List Char), gs ≠ [] ∧ x = joinWith old_signature gs ∧
      replaceSignature x = joinWith new_signature gs ∧
      hasOldSignature (replaceSignature x) = false ∧
      ∃ hs ms : List (List Char), hs.length = ms.length + 1 ∧
        replaceSignature x = altJoin hs ms ∧
        fixContent x = altJoin hs (ms.map replace_email_in_function) ∧
        (∀ m ∈ ms, matchRegionAt m = some m.length) ∧
        hasRegionMatch (fixContent x) = false := by
  obtain ⟨gs, h1, h2, h3⟩ := replaceSignature_decomp x
  obtain ⟨hs, ms, h4, h5, h6, h7⟩ := replaceEmailRefs_decomp (replaceSignature x)
  exact ⟨gs, h1, h2, h3, noOcc_step1 x, hs, ms, h4, h5, h6, h7,
    noRegion_step2 (replaceSignature x)⟩
